import Mathlib

/-!
Verification of the Weld abstract syntax tree core (`ast.rs`): the expression
tree data model and its five generic tree algorithms (`children`,
`children_mut`, `traverse`, `transform`, `substitute`,
`compare_ignoring_symbols`).

Shallow embedding notes:
* Rust `Vec` becomes `List`, `Box` disappears, `Option` stays `Option`.
* Machine integers (`i32`, `i64`) are modelled as `Int`.  A float literal
  payload (`f32`, `f64`) is modelled as `Flt`: either NaN or a non-NaN
  value abstracted by an `Int` stand-in.  The `==` the source applies to
  float payloads is `Flt.feq`: false whenever either side is NaN (IEEE
  semantics — NaN compares unequal to everything, itself included, which is
  why `Expr` derives only `PartialEq` in the source) and stand-in equality
  otherwise.  Distinctions among non-NaN values that IEEE `==` ignores
  (`+0.0 == -0.0`) are below the granularity of the stand-in, which models
  a value up to `==`.
* The annotation parameter `T: TypeBounds` (Clone + PartialEq) becomes a type
  parameter with `DecidableEq` where the code compares annotations.
* In-place mutation in Rust through `children_mut` becomes rebuilding the node
  with the mutated child positions; `HashMap` insert/get becomes an
  association list where insertion conses and lookup takes the most recent
  binding, which is observationally the overwrite semantics since the map is
  only read through `get`.
* `WeldResult<bool>` becomes `Except String Bool`, carrying the exact error
  message string built in the source.
-/

namespace Weld

/-- `Symbol` from `ast.rs`: an identifier name with a disambiguation id. -/
structure Symbol where
  name : String
  id : Int
deriving DecidableEq, Repr

/-- `BinOpKind` from `ast.rs`. -/
inductive BinOpKind where
  | Add | Subtract | Multiply | Divide | Modulo
  | Equal | NotEqual | LessThan | LessThanOrEqual | GreaterThan | GreaterThanOrEqual
  | LogicalAnd | LogicalOr | BitwiseAnd | BitwiseOr | Xor
deriving DecidableEq, Repr

/-- `BinOpKind::is_comparison` from `ast.rs`: true exactly on the four listed
match arms `Equal | NotEqual | LessThan | GreaterThan`. -/
def BinOpKind.is_comparison : BinOpKind → Bool
  | .Equal | .NotEqual | .LessThan | .GreaterThan => true
  | _ => false

/-- `ScalarKind` from `ast.rs`. -/
inductive ScalarKind where
  | Bool | I32 | I64 | F32 | F64
deriving DecidableEq, Repr

mutual

/-- `Type` from `ast.rs` (renamed: `Type` is a Lean keyword). -/
inductive WeldType : Type where
  | Scalar (kind : ScalarKind)
  | Vector (elem : WeldType)
  | Builder (kind : BuilderKind)
  | Struct (fields : List WeldType)
  | Function (params : List WeldType) (ret : WeldType)

/-- `BuilderKind` from `ast.rs`. -/
inductive BuilderKind : Type where
  | Appender (elem : WeldType)
  | Merger (elem : WeldType) (op : BinOpKind)

end

/-- `Parameter<T>` from `ast.rs`. -/
structure Parameter (T : Type) where
  name : Symbol
  ty : T
deriving DecidableEq, Repr

/-- A float literal payload (`f32`/`f64`): NaN, or a non-NaN value
abstracted by an `Int` stand-in (the stand-in models a value up to IEEE
`==`). -/
inductive Flt where
  | nan : Flt
  | val (v : Int) : Flt
deriving DecidableEq, Repr

/-- Whether a float payload is NaN. -/
def Flt.isNaN : Flt → Bool
  | .nan => true
  | .val _ => false

/-- The `==` the source applies to float payloads (IEEE semantics): false
whenever either side is NaN — in particular non-reflexive at NaN — and
stand-in equality otherwise. -/
def Flt.feq : Flt → Flt → Bool
  | .nan, _ => false
  | .val _, .nan => false
  | .val a, .val b => a = b

mutual

/-- `Expr<T>` from `ast.rs`: an annotation of type `T` plus a kind. -/
inductive Expr (T : Type) : Type where
  | mk (ty : T) (kind : ExprKind T) : Expr T

/-- `ExprKind<T>` from `ast.rs`: the closed set of node kinds. -/
inductive ExprKind (T : Type) : Type where
  | BoolLiteral (b : Bool)
  | I32Literal (v : Int)
  | I64Literal (v : Int)
  | F32Literal (v : Flt)
  | F64Literal (v : Flt)
  | Ident (s : Symbol)
  | BinOp (kind : BinOpKind) (left : Expr T) (right : Expr T)
  | MakeStruct (elems : List (Expr T))
  | MakeVector (elems : List (Expr T))
  | GetField (expr : Expr T) (index : Nat)
  | Length (data : Expr T)
  | Let (name : Symbol) (value : Expr T) (body : Expr T)
  | If (cond : Expr T) (on_true : Expr T) (on_false : Expr T)
  | Lambda (params : List (Parameter T)) (body : Expr T)
  | Apply (func : Expr T) (params : List (Expr T))
  | NewBuilder
  | For (iters : List (Iter T)) (builder : Expr T) (func : Expr T)
  | Merge (builder : Expr T) (value : Expr T)
  | Res (builder : Expr T)

/-- `Iter<T>` from `ast.rs`: data plus optional start, end (here `stop`,
since `end` is a Lean keyword) and stride. -/
inductive Iter (T : Type) : Type where
  | mk (data : Expr T) (start : Option (Expr T)) (stop : Option (Expr T))
      (stride : Option (Expr T)) : Iter T

end

/-- `TypedExpr` from `ast.rs`. -/
abbrev TypedExpr : Type := Expr WeldType

/-- The `ty` field of `Expr<T>`. -/
def Expr.ty {T : Type} : Expr T → T
  | ⟨t, _⟩ => t

/-- The `kind` field of `Expr<T>`. -/
def Expr.kind {T : Type} : Expr T → ExprKind T
  | ⟨_, k⟩ => k

/-- The expressions an `Iter` contributes to the `For` arm of
`Expr::children`: `data`, then `start`, `end`, `stride` when present. -/
def Iter.children {T : Type} : Iter T → List (Expr T)
  | ⟨d, s, e, st⟩ =>
    [d] ++ (match s with | some x => [x] | none => []) ++
    (match e with | some x => [x] | none => []) ++
    (match st with | some x => [x] | none => [])

/-- `Expr::children` from `ast.rs`: the ordered immediate sub-expressions.
Each match arm mirrors the corresponding arm of the source `match`. -/
def Expr.children {T : Type} (e : Expr T) : List (Expr T) :=
  match e.kind with
  | .BinOp _ l r => [l, r]
  | .Let _ v b => [v, b]
  | .Lambda _ b => [b]
  | .MakeStruct es => es
  | .MakeVector es => es
  | .GetField ex _ => [ex]
  | .Length d => [d]
  | .Merge b v => [b, v]
  | .Res b => [b]
  | .For its b f => (its.flatMap Iter.children) ++ [b, f]
  | .If c t f => [c, t, f]
  | .Apply f ps => f :: ps
  | .BoolLiteral _ | .I32Literal _ | .I64Literal _ | .F32Literal _
  | .F64Literal _ | .Ident _ | .NewBuilder => []

/-- The `Iter` part of the `For` arm of `Expr::children_mut`, transcribed
independently of `Iter.children` because the source writes both loops out. -/
def Iter.children_mut {T : Type} : Iter T → List (Expr T)
  | ⟨d, s, e, st⟩ =>
    [d] ++ (match s with | some x => [x] | none => []) ++
    (match e with | some x => [x] | none => []) ++
    (match st with | some x => [x] | none => [])

/-- `Expr::children_mut` from `ast.rs`. In Rust it returns mutable
references; in the pure embedding its observable content is the list of
child sub-expressions, transcribed arm by arm from its own `match` (which
the source writes out separately from `children`). -/
def Expr.children_mut {T : Type} (e : Expr T) : List (Expr T) :=
  match e.kind with
  | .BinOp _ l r => [l, r]
  | .Let _ v b => [v, b]
  | .Lambda _ b => [b]
  | .MakeStruct es => es
  | .MakeVector es => es
  | .GetField ex _ => [ex]
  | .Length d => [d]
  | .Merge b v => [b, v]
  | .Res b => [b]
  | .For its b f => (its.flatMap Iter.children_mut) ++ [b, f]
  | .If c t f => [c, t, f]
  | .Apply f ps => f :: ps
  | .BoolLiteral _ | .I32Literal _ | .I64Literal _ | .F32Literal _
  | .F64Literal _ | .Ident _ | .NewBuilder => []

mutual

/-- Size measure for termination of the children-list driven recursions
(`compare_ignoring_symbols`, `traverse`); counts one per node plus one per
child-list cons, so that a node is strictly larger than its children list. -/
def esize {T : Type} : Expr T → Nat
  | ⟨_, k⟩ => 1 + ksize k

def ksize {T : Type} : ExprKind T → Nat
  | .BoolLiteral _ | .I32Literal _ | .I64Literal _ | .F32Literal _
  | .F64Literal _ | .Ident _ | .NewBuilder => 0
  | .BinOp _ l r => (1 + esize l) + (1 + esize r)
  | .MakeStruct es => lsize es
  | .MakeVector es => lsize es
  | .GetField ex _ => 1 + esize ex
  | .Length d => 1 + esize d
  | .Let _ v b => (1 + esize v) + (1 + esize b)
  | .If c t f => (1 + esize c) + ((1 + esize t) + (1 + esize f))
  | .Lambda _ b => 1 + esize b
  | .Apply f ps => (1 + esize f) + lsize ps
  | .For its b f => ilsize its + ((1 + esize b) + (1 + esize f))
  | .Merge b v => (1 + esize b) + (1 + esize v)
  | .Res b => 1 + esize b

def lsize {T : Type} : List (Expr T) → Nat
  | [] => 0
  | e :: es => (1 + esize e) + lsize es

def osize {T : Type} : Option (Expr T) → Nat
  | none => 0
  | some e => 1 + esize e

def isize {T : Type} : Iter T → Nat
  | ⟨d, s, e, st⟩ => (1 + esize d) + (osize s + (osize e + osize st))

def ilsize {T : Type} : List (Iter T) → Nat
  | [] => 0
  | it :: its => isize it + ilsize its

end

theorem lsize_append {T : Type} (as bs : List (Expr T)) :
    lsize (as ++ bs) = lsize as + lsize bs := by
  induction as with
  | nil => simp [lsize]
  | cons a as ih => simp [lsize, ih]; omega

theorem lsize_iter_children {T : Type} (it : Iter T) :
    lsize it.children = isize it := by
  obtain ⟨d, s, e, st⟩ := it
  cases s <;> cases e <;> cases st <;>
    simp [Iter.children, isize, osize, lsize, lsize_append]

theorem lsize_flatMap_iters {T : Type} (its : List (Iter T)) :
    lsize (its.flatMap Iter.children) = ilsize its := by
  induction its with
  | nil => simp [lsize, ilsize]
  | cons it its ih =>
    simp [List.flatMap_cons, lsize_append, ih, ilsize, lsize_iter_children]

theorem lsize_children {T : Type} (e : Expr T) :
    lsize e.children = ksize e.kind := by
  obtain ⟨t, k⟩ := e
  cases k <;>
    simp [Expr.children, Expr.kind, ksize, lsize, lsize_append, lsize_flatMap_iters]

theorem lsize_children_lt {T : Type} (e : Expr T) :
    lsize e.children < esize e := by
  obtain ⟨t, k⟩ := e
  have h := lsize_children ⟨t, k⟩
  simp [Expr.kind] at h
  simp [esize, h]

theorem esize_lt_of_mem {T : Type} {c : Expr T} {as : List (Expr T)}
    (h : c ∈ as) : esize c < lsize as := by
  induction as with
  | nil => cases h
  | cons a as ih =>
    rcases List.mem_cons.mp h with h1 | h1
    · subst h1; simp [lsize]; omega
    · have := ih h1; simp [lsize]; omega

theorem esize_child_lt {T : Type} {c : Expr T} {e : Expr T}
    (h : c ∈ e.children) : esize c < esize e :=
  Nat.lt_trans (esize_lt_of_mem h) (lsize_children_lt e)

theorem isize_pos {T : Type} (it : Iter T) : 1 ≤ isize it := by
  obtain ⟨d, s, e, st⟩ := it
  simp [isize]
  omega

/-- The `HashMap<&Symbol, &Symbol>` of `compare_ignoring_symbols`, as an
association list: insertion conses, lookup takes the most recent binding
(the overwrite semantics of `HashMap::insert` as seen through `get`). -/
abbrev SymMap : Type := List (Symbol × Symbol)

/-- `HashMap::get`. -/
def SymMap.lookup : SymMap → Symbol → Option Symbol
  | [], _ => none
  | (a, b) :: t, k => if a = k then some b else SymMap.lookup t k

/-- The set of left-tree symbols currently mapped. -/
def SymMap.keys (m : SymMap) : List Symbol := m.map (fun p => p.1)

/-- The message of the only error the source ever constructs. -/
def undefinedSymbolMsg : String := "undefined symbol when comparing expressions"

/-- The `same_kind` match of `_compare_ignoring_symbols` in `ast.rs`,
transcribed arm by arm: it checks that the two kinds match and that every
non-expression field agrees, records binder correspondences in the map
(`Let` names, `Lambda` parameter names), and signals the undefined-symbol
error for an unmapped left `Ident`.  The source matches on the pair of
kinds with guards and a final `_ => Ok(false)` arm; the transcription nests
the two matches (left kind, then right kind, each arm with its own
catch-all), which decides exactly the same arm for every pair: a guarded
source arm whose guard fails falls through to `Ok(false)`, reproduced by
the `else` branches.  The float literal guards use `Flt.feq`, the IEEE `==`
of the source, so a NaN payload never satisfies them. -/
def kindCheck {T : Type} [DecidableEq T] (k1 k2 : ExprKind T) (m : SymMap) :
    (Except String Bool) × SymMap :=
  match k1 with
  | .BinOp kind1 _ _ =>
    match k2 with
    | .BinOp kind2 _ _ => if kind1 = kind2 then (.ok true, m) else (.ok false, m)
    | _ => (.ok false, m)
  | .Let sym1 _ _ =>
    match k2 with
    | .Let sym2 _ _ => (.ok true, (sym1, sym2) :: m)
    | _ => (.ok false, m)
  | .Lambda params1 _ =>
    match k2 with
    | .Lambda params2 _ =>
      if params1.length = params2.length ∧
          (params1.zip params2).all (fun t => t.1.ty = t.2.ty) then
        (.ok true, (params1.zip params2).foldl (fun acc p => (p.1.name, p.2.name) :: acc) m)
      else
        (.ok false, m)
    | _ => (.ok false, m)
  | .NewBuilder =>
    match k2 with
    | .NewBuilder => (.ok true, m)
    | _ => (.ok false, m)
  | .MakeStruct _ =>
    match k2 with
    | .MakeStruct _ => (.ok true, m)
    | _ => (.ok false, m)
  | .MakeVector _ =>
    match k2 with
    | .MakeVector _ => (.ok true, m)
    | _ => (.ok false, m)
  | .GetField _ idx1 =>
    match k2 with
    | .GetField _ idx2 => if idx1 = idx2 then (.ok true, m) else (.ok false, m)
    | _ => (.ok false, m)
  | .Length _ =>
    match k2 with
    | .Length _ => (.ok true, m)
    | _ => (.ok false, m)
  | .Merge _ _ =>
    match k2 with
    | .Merge _ _ => (.ok true, m)
    | _ => (.ok false, m)
  | .Res _ =>
    match k2 with
    | .Res _ => (.ok true, m)
    | _ => (.ok false, m)
  | .For _ _ _ =>
    match k2 with
    | .For _ _ _ => (.ok true, m)
    | _ => (.ok false, m)
  | .If _ _ _ =>
    match k2 with
    | .If _ _ _ => (.ok true, m)
    | _ => (.ok false, m)
  | .Apply _ _ =>
    match k2 with
    | .Apply _ _ => (.ok true, m)
    | _ => (.ok false, m)
  | .BoolLiteral l =>
    match k2 with
    | .BoolLiteral r => if l = r then (.ok true, m) else (.ok false, m)
    | _ => (.ok false, m)
  | .I32Literal l =>
    match k2 with
    | .I32Literal r => if l = r then (.ok true, m) else (.ok false, m)
    | _ => (.ok false, m)
  | .I64Literal l =>
    match k2 with
    | .I64Literal r => if l = r then (.ok true, m) else (.ok false, m)
    | _ => (.ok false, m)
  | .F32Literal l =>
    match k2 with
    | .F32Literal r => if l.feq r then (.ok true, m) else (.ok false, m)
    | _ => (.ok false, m)
  | .F64Literal l =>
    match k2 with
    | .F64Literal r => if l.feq r then (.ok true, m) else (.ok false, m)
    | _ => (.ok false, m)
  | .Ident l =>
    match k2 with
    | .Ident r =>
      (match m.lookup l with
       | some lv => (.ok (lv = r), m)
       | none => (.error undefinedSymbolMsg, m))
    | _ => (.ok false, m)

mutual

/-- `_compare_ignoring_symbols` from `ast.rs`: annotation check, `same_kind`
check (which may extend the symbol map), then pairwise recursion over the
two `children()` lists, short-circuiting on the first error or inequality.
The mutable `sym_map` is threaded as explicit state. -/
def cmp {T : Type} [DecidableEq T] (e1 e2 : Expr T) (m : SymMap) :
    (Except String Bool) × SymMap :=
  if e1.ty ≠ e2.ty then (.ok false, m)
  else
    match kindCheck e1.kind e2.kind m with
    | (.error msg, m1) => (.error msg, m1)
    | (.ok false, m1) => (.ok false, m1)
    | (.ok true, m1) =>
      if e1.children.length ≠ e2.children.length then (.ok false, m1)
      else cmpList e1.children e2.children m1
termination_by esize e1
decreasing_by
  exact lsize_children_lt e1

/-- The `for (c1, c2) in e1_children.iter().zip(e2_children)` loop: compare
pairwise in order, return the first non-`Ok(true)` result, `Ok(true)` when
the zip is exhausted. -/
def cmpList {T : Type} [DecidableEq T] : List (Expr T) → List (Expr T) → SymMap →
    (Except String Bool) × SymMap
  | [], _, m => (.ok true, m)
  | _ :: _, [], m => (.ok true, m)
  | c1 :: cs1, c2 :: cs2, m =>
    match cmp c1 c2 m with
    | (.ok true, m1) => cmpList cs1 cs2 m1
    | other => other
termination_by l _ _ => lsize l
decreasing_by
  all_goals simp [lsize] <;> omega

end

/-- `Expr::compare_ignoring_symbols` from `ast.rs`: run the recursive
comparison with a fresh, empty symbol map. -/
def compare_ignoring_symbols {T : Type} [DecidableEq T] (e1 e2 : Expr T) :
    Except String Bool :=
  (cmp e1 e2 []).1

mutual

/-- `Expr::substitute` from `ast.rs`.  A node that is `Ident(symbol)` is
replaced wholesale by the replacement; a `Let` always substitutes into its
value and into its body only when the bound name differs from the target; a
`Lambda` substitutes into its body only when no parameter equals the target;
every other kind substitutes into each `children_mut()` position (which the
per-variant arms below spell out), leaving all non-expression fields and the
annotation unchanged — exactly the effect of the in-place loop in the source. -/
def Expr.substitute {T : Type} : Expr T → Symbol → Expr T → Expr T
  | ⟨ty, k⟩, symbol, replacement =>
    match k with
    | .Ident sym => if sym = symbol then replacement else ⟨ty, .Ident sym⟩
    | .Let name value body =>
      ⟨ty, .Let name (value.substitute symbol replacement)
        (if name ≠ symbol then body.substitute symbol replacement else body)⟩
    | .Lambda params body =>
      ⟨ty, .Lambda params
        (if params.all (fun p => p.name ≠ symbol) then body.substitute symbol replacement
         else body)⟩
    | .BinOp op l r =>
      ⟨ty, .BinOp op (l.substitute symbol replacement) (r.substitute symbol replacement)⟩
    | .MakeStruct es => ⟨ty, .MakeStruct (substituteList es symbol replacement)⟩
    | .MakeVector es => ⟨ty, .MakeVector (substituteList es symbol replacement)⟩
    | .GetField ex i => ⟨ty, .GetField (ex.substitute symbol replacement) i⟩
    | .Length d => ⟨ty, .Length (d.substitute symbol replacement)⟩
    | .If c t f =>
      ⟨ty, .If (c.substitute symbol replacement) (t.substitute symbol replacement)
        (f.substitute symbol replacement)⟩
    | .Apply f ps =>
      ⟨ty, .Apply (f.substitute symbol replacement) (substituteList ps symbol replacement)⟩
    | .For its b f =>
      ⟨ty, .For (substituteIterList its symbol replacement)
        (b.substitute symbol replacement) (f.substitute symbol replacement)⟩
    | .Merge b v =>
      ⟨ty, .Merge (b.substitute symbol replacement) (v.substitute symbol replacement)⟩
    | .Res b => ⟨ty, .Res (b.substitute symbol replacement)⟩
    | .BoolLiteral b => ⟨ty, .BoolLiteral b⟩
    | .I32Literal v => ⟨ty, .I32Literal v⟩
    | .I64Literal v => ⟨ty, .I64Literal v⟩
    | .F32Literal v => ⟨ty, .F32Literal v⟩
    | .F64Literal v => ⟨ty, .F64Literal v⟩
    | .NewBuilder => ⟨ty, .NewBuilder⟩
termination_by structural e => e

def substituteList {T : Type} : List (Expr T) → Symbol → Expr T → List (Expr T)
  | [], _, _ => []
  | e :: es, symbol, replacement =>
    e.substitute symbol replacement :: substituteList es symbol replacement
termination_by structural l => l

def substituteOpt {T : Type} : Option (Expr T) → Symbol → Expr T → Option (Expr T)
  | none, _, _ => none
  | some e, symbol, replacement => some (e.substitute symbol replacement)
termination_by structural o => o

def Iter.substitute {T : Type} : Iter T → Symbol → Expr T → Iter T
  | ⟨d, s, e, st⟩, symbol, replacement =>
    ⟨d.substitute symbol replacement, substituteOpt s symbol replacement,
     substituteOpt e symbol replacement, substituteOpt st symbol replacement⟩
termination_by structural it => it

def substituteIterList {T : Type} : List (Iter T) → Symbol → Expr T → List (Iter T)
  | [], _, _ => []
  | it :: its, symbol, replacement =>
    it.substitute symbol replacement :: substituteIterList its symbol replacement
termination_by structural l => l

end

mutual

/-- `Expr::traverse` from `ast.rs`, with the `FnMut` visitor modelled as a
state-threading fold: apply `func` to the current node first, then recurse
into each child in enumeration order. -/
def Expr.traverse {T σ : Type} (e : Expr T) (func : σ → Expr T → σ) (s : σ) : σ :=
  traverseList e.children func (func s e)
termination_by esize e
decreasing_by
  exact lsize_children_lt e

def traverseList {T σ : Type} : List (Expr T) → (σ → Expr T → σ) → σ → σ
  | [], _, s => s
  | c :: cs, func, s => traverseList cs func (c.traverse func s)
termination_by l _ _ => lsize l
decreasing_by
  all_goals simp [lsize] <;> omega

end

mutual

/-- The trace of `Expr::traverse`: the sequence of nodes the visitor is
invoked on, in order (the node itself, then the children subtrees). -/
def Expr.preorder {T : Type} (e : Expr T) : List (Expr T) :=
  e :: preorderList e.children
termination_by esize e
decreasing_by
  exact lsize_children_lt e

def preorderList {T : Type} : List (Expr T) → List (Expr T)
  | [] => []
  | c :: cs => c.preorder ++ preorderList cs
termination_by l => lsize l
decreasing_by
  all_goals simp [lsize] <;> omega

end

mutual

/-- The node count of the specification: recursively
`1 + sum of the sizes of the children`. -/
def Expr.size {T : Type} (e : Expr T) : Nat :=
  1 + sizeList e.children
termination_by esize e
decreasing_by
  exact lsize_children_lt e

def sizeList {T : Type} : List (Expr T) → Nat
  | [] => 0
  | c :: cs => c.size + sizeList cs
termination_by l => lsize l
decreasing_by
  all_goals simp [lsize] <;> omega

end

mutual

/-- `Expr::transform` from `ast.rs`: apply the rewriter to the node; on
`Some(e)` splice `e` in and re-run `transform` on it (the per-node fixpoint
loop); on `None` recurse into each `children_mut()` position
(`transformChildren`).  The source documents that a rewriter must decline
after finitely many replacements per node and loops forever otherwise;
`fuel` bounds exactly those splice-and-retry steps (and nothing else), so
any run of the source that terminates is reproduced by every sufficiently
large `fuel`. -/
def Expr.transform {T : Type} : Expr T → (Expr T → Option (Expr T)) → Nat → Expr T
  | e, func, fuel =>
    match func e with
    | some e2 =>
      match fuel with
      | 0 => e2
      | fuel2 + 1 => e2.transform func fuel2
    | none => transformChildren e func fuel
termination_by e _ fuel => (fuel, 2 * esize e + 1)
decreasing_by
  · exact Prod.Lex.left _ _ (Nat.lt_succ_self _)
  · apply Prod.Lex.right; omega

/-- The `for c in self.children_mut() { c.transform(func); }` loop of
`Expr::transform`: rebuild the node with each `children_mut()` position
transformed, every other field unchanged. -/
def transformChildren {T : Type} : Expr T → (Expr T → Option (Expr T)) → Nat → Expr T
  | ⟨ty, .BinOp op l r⟩, func, fuel =>
    ⟨ty, .BinOp op (l.transform func fuel) (r.transform func fuel)⟩
  | ⟨ty, .Let name value body⟩, func, fuel =>
    ⟨ty, .Let name (value.transform func fuel) (body.transform func fuel)⟩
  | ⟨ty, .Lambda params body⟩, func, fuel => ⟨ty, .Lambda params (body.transform func fuel)⟩
  | ⟨ty, .MakeStruct es⟩, func, fuel => ⟨ty, .MakeStruct (transformList es func fuel)⟩
  | ⟨ty, .MakeVector es⟩, func, fuel => ⟨ty, .MakeVector (transformList es func fuel)⟩
  | ⟨ty, .GetField ex i⟩, func, fuel => ⟨ty, .GetField (ex.transform func fuel) i⟩
  | ⟨ty, .Length d⟩, func, fuel => ⟨ty, .Length (d.transform func fuel)⟩
  | ⟨ty, .If c t f⟩, func, fuel =>
    ⟨ty, .If (c.transform func fuel) (t.transform func fuel) (f.transform func fuel)⟩
  | ⟨ty, .Apply f ps⟩, func, fuel =>
    ⟨ty, .Apply (f.transform func fuel) (transformList ps func fuel)⟩
  | ⟨ty, .For its b f⟩, func, fuel =>
    ⟨ty, .For (transformIterList its func fuel) (b.transform func fuel)
      (f.transform func fuel)⟩
  | ⟨ty, .Merge b v⟩, func, fuel => ⟨ty, .Merge (b.transform func fuel) (v.transform func fuel)⟩
  | ⟨ty, .Res b⟩, func, fuel => ⟨ty, .Res (b.transform func fuel)⟩
  | ⟨ty, .BoolLiteral b⟩, _, _ => ⟨ty, .BoolLiteral b⟩
  | ⟨ty, .I32Literal v⟩, _, _ => ⟨ty, .I32Literal v⟩
  | ⟨ty, .I64Literal v⟩, _, _ => ⟨ty, .I64Literal v⟩
  | ⟨ty, .F32Literal v⟩, _, _ => ⟨ty, .F32Literal v⟩
  | ⟨ty, .F64Literal v⟩, _, _ => ⟨ty, .F64Literal v⟩
  | ⟨ty, .Ident s⟩, _, _ => ⟨ty, .Ident s⟩
  | ⟨ty, .NewBuilder⟩, _, _ => ⟨ty, .NewBuilder⟩
termination_by e _ fuel => (fuel, 2 * esize e)
decreasing_by
  all_goals (apply Prod.Lex.right; simp [esize, ksize, lsize, osize, isize, ilsize] <;> omega)

def transformList {T : Type} : List (Expr T) → (Expr T → Option (Expr T)) → Nat → List (Expr T)
  | [], _, _ => []
  | e :: es, func, fuel => e.transform func fuel :: transformList es func fuel
termination_by l _ fuel => (fuel, 2 * lsize l + 1)
decreasing_by
  all_goals (apply Prod.Lex.right; simp [esize, ksize, lsize, osize, isize, ilsize] <;> omega)

def transformOpt {T : Type} : Option (Expr T) → (Expr T → Option (Expr T)) → Nat → Option (Expr T)
  | none, _, _ => none
  | some e, func, fuel => some (e.transform func fuel)
termination_by o _ fuel => (fuel, 2 * osize o + 1)
decreasing_by
  all_goals (apply Prod.Lex.right; simp [esize, ksize, lsize, osize, isize, ilsize] <;> omega)

def Iter.transform {T : Type} : Iter T → (Expr T → Option (Expr T)) → Nat → Iter T
  | ⟨d, s, e, st⟩, func, fuel =>
    ⟨d.transform func fuel, transformOpt s func fuel,
     transformOpt e func fuel, transformOpt st func fuel⟩
termination_by it _ fuel => (fuel, 2 * isize it)
decreasing_by
  all_goals (apply Prod.Lex.right; simp [esize, ksize, lsize, osize, isize, ilsize] <;> omega)

def transformIterList {T : Type} : List (Iter T) → (Expr T → Option (Expr T)) → Nat → List (Iter T)
  | [], _, _ => []
  | it :: its, func, fuel => it.transform func fuel :: transformIterList its func fuel
termination_by l _ fuel => (fuel, 2 * ilsize l + 1)
decreasing_by
  all_goals
    (apply Prod.Lex.right; have h := isize_pos it;
     simp [esize, ksize, lsize, osize, isize, ilsize] at h ⊢ <;> omega)

end

mutual

/-- The free identifiers of an expression under the binding discipline of
the data model: `Let` binds its name in the body only, `Lambda` binds its
parameter names in the body.  Spec: a free identifier is "an `Ident`
reference not bound by any enclosing `Let` or `Lambda` parameter within the
tree under examination". -/
def Expr.freeVars {T : Type} : Expr T → List Symbol
  | ⟨_, k⟩ =>
    match k with
    | .Ident s => [s]
    | .Let name value body =>
      value.freeVars ++ (body.freeVars).filter (fun s => s ≠ name)
    | .Lambda params body =>
      (body.freeVars).filter (fun s => params.all (fun p => p.name ≠ s))
    | .BinOp _ l r => l.freeVars ++ r.freeVars
    | .MakeStruct es => freeVarsList es
    | .MakeVector es => freeVarsList es
    | .GetField ex _ => ex.freeVars
    | .Length d => d.freeVars
    | .If c t f => c.freeVars ++ (t.freeVars ++ f.freeVars)
    | .Apply f ps => f.freeVars ++ freeVarsList ps
    | .For its b f => freeVarsIterList its ++ (b.freeVars ++ f.freeVars)
    | .Merge b v => b.freeVars ++ v.freeVars
    | .Res b => b.freeVars
    | .BoolLiteral _ | .I32Literal _ | .I64Literal _ | .F32Literal _
    | .F64Literal _ | .NewBuilder => []
termination_by structural e => e

def freeVarsList {T : Type} : List (Expr T) → List Symbol
  | [] => []
  | e :: es => e.freeVars ++ freeVarsList es
termination_by structural l => l

def freeVarsOpt {T : Type} : Option (Expr T) → List Symbol
  | none => []
  | some e => e.freeVars
termination_by structural o => o

def Iter.freeVars {T : Type} : Iter T → List Symbol
  | ⟨d, s, e, st⟩ => d.freeVars ++ (freeVarsOpt s ++ (freeVarsOpt e ++ freeVarsOpt st))
termination_by structural it => it

def freeVarsIterList {T : Type} : List (Iter T) → List Symbol
  | [] => []
  | it :: its => it.freeVars ++ freeVarsIterList its
termination_by structural l => l

end

mutual

/-- Every symbol bound by a `Let` or appearing as a `Lambda` parameter name
anywhere in the tree. -/
def Expr.binderNames {T : Type} : Expr T → List Symbol
  | ⟨_, k⟩ =>
    match k with
    | .Ident _ => []
    | .Let name value body => name :: (value.binderNames ++ body.binderNames)
    | .Lambda params body => params.map (fun p => p.name) ++ body.binderNames
    | .BinOp _ l r => l.binderNames ++ r.binderNames
    | .MakeStruct es => binderNamesList es
    | .MakeVector es => binderNamesList es
    | .GetField ex _ => ex.binderNames
    | .Length d => d.binderNames
    | .If c t f => c.binderNames ++ (t.binderNames ++ f.binderNames)
    | .Apply f ps => f.binderNames ++ binderNamesList ps
    | .For its b f => binderNamesIterList its ++ (b.binderNames ++ f.binderNames)
    | .Merge b v => b.binderNames ++ v.binderNames
    | .Res b => b.binderNames
    | .BoolLiteral _ | .I32Literal _ | .I64Literal _ | .F32Literal _
    | .F64Literal _ | .NewBuilder => []
termination_by structural e => e

def binderNamesList {T : Type} : List (Expr T) → List Symbol
  | [] => []
  | e :: es => e.binderNames ++ binderNamesList es
termination_by structural l => l

def binderNamesOpt {T : Type} : Option (Expr T) → List Symbol
  | none => []
  | some e => e.binderNames
termination_by structural o => o

def Iter.binderNames {T : Type} : Iter T → List Symbol
  | ⟨d, s, e, st⟩ =>
    d.binderNames ++ (binderNamesOpt s ++ (binderNamesOpt e ++ binderNamesOpt st))
termination_by structural it => it

def binderNamesIterList {T : Type} : List (Iter T) → List Symbol
  | [] => []
  | it :: its => it.binderNames ++ binderNamesIterList its
termination_by structural l => l

end

/-- The binders a single node contributes: exactly the symbols the `Let` and
`Lambda` arms of the `same_kind` match insert into the symbol map. -/
def kindBinders {T : Type} : ExprKind T → List Symbol
  | .Let name _ _ => [name]
  | .Lambda params _ => params.map (fun p => p.name)
  | _ => []

/-- Node-local NaN-freeness: no NaN `F32Literal`/`F64Literal` payload at
this node (the condition under which the literal guard of the `same_kind`
match is reflexive). -/
def kindNanFree {T : Type} : ExprKind T → Bool
  | .F32Literal v => !v.isNaN
  | .F64Literal v => !v.isNaN
  | _ => true

mutual

/-- No `F32Literal`/`F64Literal` node anywhere in the tree carries a NaN
payload. -/
def Expr.nanFree {T : Type} : Expr T → Bool
  | ⟨_, k⟩ =>
    match k with
    | .F32Literal v => !v.isNaN
    | .F64Literal v => !v.isNaN
    | .BoolLiteral _ | .I32Literal _ | .I64Literal _ | .Ident _ | .NewBuilder => true
    | .BinOp _ l r => l.nanFree && r.nanFree
    | .MakeStruct es => nanFreeList es
    | .MakeVector es => nanFreeList es
    | .GetField ex _ => ex.nanFree
    | .Length d => d.nanFree
    | .Let _ v b => v.nanFree && b.nanFree
    | .If c t f => c.nanFree && (t.nanFree && f.nanFree)
    | .Lambda _ b => b.nanFree
    | .Apply f ps => f.nanFree && nanFreeList ps
    | .For its b f => nanFreeIterList its && (b.nanFree && f.nanFree)
    | .Merge b v => b.nanFree && v.nanFree
    | .Res b => b.nanFree
termination_by structural e => e

def nanFreeList {T : Type} : List (Expr T) → Bool
  | [] => true
  | e :: es => e.nanFree && nanFreeList es
termination_by structural l => l

def nanFreeOpt {T : Type} : Option (Expr T) → Bool
  | none => true
  | some e => e.nanFree
termination_by structural o => o

def Iter.nanFree {T : Type} : Iter T → Bool
  | ⟨d, s, e, st⟩ => d.nanFree && (nanFreeOpt s && (nanFreeOpt e && nanFreeOpt st))
termination_by structural it => it

def nanFreeIterList {T : Type} : List (Iter T) → Bool
  | [] => true
  | it :: its => it.nanFree && nanFreeIterList its
termination_by structural l => l

end

mutual

/-- Apply a symbol renaming to every symbol occurrence of the tree: `Ident`
symbols, `Let` names and `Lambda` parameter names.  Annotations, literal
payloads and all other fields are untouched.  On a closed tree this is
exactly a consistent renaming of every bound symbol. -/
def Expr.rename {T : Type} : Expr T → (Symbol → Symbol) → Expr T
  | ⟨ty, k⟩, r =>
    match k with
    | .Ident s => ⟨ty, .Ident (r s)⟩
    | .Let name value body => ⟨ty, .Let (r name) (value.rename r) (body.rename r)⟩
    | .Lambda params body =>
      ⟨ty, .Lambda (params.map (fun p => ⟨r p.name, p.ty⟩)) (body.rename r)⟩
    | .BinOp op l rr => ⟨ty, .BinOp op (l.rename r) (rr.rename r)⟩
    | .MakeStruct es => ⟨ty, .MakeStruct (renameList es r)⟩
    | .MakeVector es => ⟨ty, .MakeVector (renameList es r)⟩
    | .GetField ex i => ⟨ty, .GetField (ex.rename r) i⟩
    | .Length d => ⟨ty, .Length (d.rename r)⟩
    | .If c t f => ⟨ty, .If (c.rename r) (t.rename r) (f.rename r)⟩
    | .Apply f ps => ⟨ty, .Apply (f.rename r) (renameList ps r)⟩
    | .For its b f => ⟨ty, .For (renameIterList its r) (b.rename r) (f.rename r)⟩
    | .Merge b v => ⟨ty, .Merge (b.rename r) (v.rename r)⟩
    | .Res b => ⟨ty, .Res (b.rename r)⟩
    | .BoolLiteral b => ⟨ty, .BoolLiteral b⟩
    | .I32Literal v => ⟨ty, .I32Literal v⟩
    | .I64Literal v => ⟨ty, .I64Literal v⟩
    | .F32Literal v => ⟨ty, .F32Literal v⟩
    | .F64Literal v => ⟨ty, .F64Literal v⟩
    | .NewBuilder => ⟨ty, .NewBuilder⟩
termination_by structural e => e

def renameList {T : Type} : List (Expr T) → (Symbol → Symbol) → List (Expr T)
  | [], _ => []
  | e :: es, r => e.rename r :: renameList es r
termination_by structural l => l

def renameOpt {T : Type} : Option (Expr T) → (Symbol → Symbol) → Option (Expr T)
  | none, _ => none
  | some e, r => some (e.rename r)
termination_by structural o => o

def Iter.rename {T : Type} : Iter T → (Symbol → Symbol) → Iter T
  | ⟨d, s, e, st⟩, r => ⟨d.rename r, renameOpt s r, renameOpt e r, renameOpt st r⟩
termination_by structural it => it

def renameIterList {T : Type} : List (Iter T) → (Symbol → Symbol) → List (Iter T)
  | [], _ => []
  | it :: its, r => it.rename r :: renameIterList its r
termination_by structural l => l

end

/-- The alpha-renaming of the specification scenario: increment every
disambiguation id of every symbol. -/
def bumpSym (s : Symbol) : Symbol := ⟨s.name, s.id + 1⟩

/-- The node-local part of the shape relation under a left-to-right symbol
renaming `r`: the two kinds are the same variant; literal
payloads and `BinOp` operators are unconstrained (they are the payload
positions the comparison checks separately), `GetField` indices agree,
`Lambda` parameter lists have equal length and pairwise equal types, and
every symbol on the right is the image under `r` of its left counterpart. -/
def skelKindLocal {T : Type} [DecidableEq T] (r : Symbol → Symbol) :
    ExprKind T → ExprKind T → Bool
  | .BoolLiteral _, k2 => match k2 with | .BoolLiteral _ => true | _ => false
  | .I32Literal _, k2 => match k2 with | .I32Literal _ => true | _ => false
  | .I64Literal _, k2 => match k2 with | .I64Literal _ => true | _ => false
  | .F32Literal _, k2 => match k2 with | .F32Literal _ => true | _ => false
  | .F64Literal _, k2 => match k2 with | .F64Literal _ => true | _ => false
  | .Ident l, k2 => match k2 with | .Ident rr => rr = r l | _ => false
  | .BinOp _ _ _, k2 => match k2 with | .BinOp _ _ _ => true | _ => false
  | .MakeStruct _, k2 => match k2 with | .MakeStruct _ => true | _ => false
  | .MakeVector _, k2 => match k2 with | .MakeVector _ => true | _ => false
  | .GetField _ i1, k2 => match k2 with | .GetField _ i2 => i1 = i2 | _ => false
  | .Length _, k2 => match k2 with | .Length _ => true | _ => false
  | .Let n1 _ _, k2 => match k2 with | .Let n2 _ _ => n2 = r n1 | _ => false
  | .If _ _ _, k2 => match k2 with | .If _ _ _ => true | _ => false
  | .Lambda ps1 _, k2 =>
    match k2 with
    | .Lambda ps2 _ =>
      ps1.length = ps2.length &&
        (ps1.zip ps2).all (fun t => t.1.ty = t.2.ty && t.2.name = r t.1.name)
    | _ => false
  | .Apply _ _, k2 => match k2 with | .Apply _ _ => true | _ => false
  | .NewBuilder, k2 => match k2 with | .NewBuilder => true | _ => false
  | .For _ _ _, k2 => match k2 with | .For _ _ _ => true | _ => false
  | .Merge _ _, k2 => match k2 with | .Merge _ _ => true | _ => false
  | .Res _, k2 => match k2 with | .Res _ => true | _ => false

/-- The payload positions `compare_ignoring_symbols` checks for equality
beyond the shape: literal values (float literals through the IEEE `==`,
`Flt.feq`) and `BinOp` operator kinds.  On any other pair of kinds it is
`true` (no payload). -/
def payloadLocal {T : Type} : ExprKind T → ExprKind T → Bool
  | .BoolLiteral l, k2 => match k2 with | .BoolLiteral rr => l = rr | _ => true
  | .I32Literal l, k2 => match k2 with | .I32Literal rr => l = rr | _ => true
  | .I64Literal l, k2 => match k2 with | .I64Literal rr => l = rr | _ => true
  | .F32Literal l, k2 => match k2 with | .F32Literal rr => l.feq rr | _ => true
  | .F64Literal l, k2 => match k2 with | .F64Literal rr => l.feq rr | _ => true
  | .BinOp op1 _ _, k2 => match k2 with | .BinOp op2 _ _ => op1 = op2 | _ => true
  | _, _ => true

mutual

/-- The shape relation under a left-to-right symbol renaming `r`: equal
annotations, node-locally matching kinds (`skelKindLocal`), and pairwise
related children lists of equal length.  Two trees in this relation are
identical except possibly at literal values, `BinOp` operators (the payload
positions), and symbols, which correspond via `r`. -/
def skel {T : Type} [DecidableEq T] (r : Symbol → Symbol) (e1 e2 : Expr T) : Bool :=
  (e1.ty = e2.ty) && (skelKindLocal r e1.kind e2.kind &&
    skelList r e1.children e2.children)
termination_by esize e1
decreasing_by
  exact lsize_children_lt e1

def skelList {T : Type} [DecidableEq T] (r : Symbol → Symbol) :
    List (Expr T) → List (Expr T) → Bool
  | [], [] => true
  | [], _ :: _ => false
  | _ :: _, [] => false
  | c1 :: cs1, c2 :: cs2 => skel r c1 c2 && skelList r cs1 cs2
termination_by l _ => lsize l
decreasing_by
  all_goals simp [lsize] <;> omega

end

mutual

/-- Pairwise equality of the payload positions (literal values and `BinOp`
operators) of two trees, recursing through the children lists just as the
comparison does.  Under `skel` this decides exactly whether
`compare_ignoring_symbols` answers equal or not-equal. -/
def payloadEq {T : Type} (e1 e2 : Expr T) : Bool :=
  payloadLocal e1.kind e2.kind && payloadEqList e1.children e2.children
termination_by esize e1
decreasing_by
  exact lsize_children_lt e1

def payloadEqList {T : Type} : List (Expr T) → List (Expr T) → Bool
  | [], _ => true
  | _ :: _, [] => true
  | c1 :: cs1, c2 :: cs2 => payloadEq c1 c2 && payloadEqList cs1 cs2
termination_by l _ => lsize l
decreasing_by
  all_goals simp [lsize] <;> omega

end

/-! ## Basic structural lemmas and the enumeration claims -/

theorem iter_children_mut_eq {T : Type} (it : Iter T) :
    it.children_mut = it.children := by
  obtain ⟨d, s, e, st⟩ := it
  rfl

/-- Claim C9: `BinOpKind::is_comparison` returns true exactly for `Equal`,
`NotEqual`, `LessThan` and `GreaterThan`, and false for every other kind —
in particular for `LessThanOrEqual` and `GreaterThanOrEqual`. -/
theorem claim9_is_comparison :
    (∀ op : BinOpKind,
      op.is_comparison = true ↔
        (op = .Equal ∨ op = .NotEqual ∨ op = .LessThan ∨ op = .GreaterThan)) ∧
    BinOpKind.is_comparison .LessThanOrEqual = false ∧
    BinOpKind.is_comparison .GreaterThanOrEqual = false := by
  refine ⟨fun op => ?_, rfl, rfl⟩
  cases op <;> simp [BinOpKind.is_comparison]

/-- Claim C6: for every expression, `children` and `children_mut` yield the
same number of elements, and element by element the same (content-equal)
child sub-expression, in the same order — here stated as equality of the two
enumeration lists, which entails all three. -/
theorem claim6_children_mut_agrees {T : Type} (e : Expr T) :
    e.children_mut.length = e.children.length ∧ e.children_mut = e.children := by
  have hfun : (Iter.children_mut : Iter T → List (Expr T)) = Iter.children :=
    funext iter_children_mut_eq
  have h : e.children_mut = e.children := by
    obtain ⟨t, k⟩ := e
    cases k <;>
      simp [Expr.children, Expr.children_mut, Expr.kind, hfun]
  exact ⟨by rw [h], h⟩

/-! ## Claim C8: transform with an always-declining rewriter -/

/-- Claim C8: calling `transform` with a rewriter that always declines
(always answers `None`) leaves the expression identical to its original
value, whatever the fuel bound on the per-node fixpoint loop (which such a
run never enters). -/
theorem claim8_transform_noop {T : Type} (func : Expr T → Option (Expr T))
    (h : ∀ x, func x = none) (fuel : Nat) (e : Expr T) :
    e.transform func fuel = e := by
  refine Expr.transform.induct
    (fun e f fl => (∀ x, f x = none) → e.transform f fl = e)
    (fun e f fl => (∀ x, f x = none) → transformChildren e f fl = e)
    (fun l f fl => (∀ x, f x = none) → transformIterList l f fl = l)
    (fun it f fl => (∀ x, f x = none) → it.transform f fl = it)
    (fun o f fl => (∀ x, f x = none) → transformOpt o f fl = o)
    (fun l f fl => (∀ x, f x = none) → transformList l f fl = l)
    ?_ ?_ ?_ ?_ ?_ ?_ ?_ ?_ ?_ ?_ ?_ ?_ ?_ ?_ ?_ ?_ ?_ ?_ ?_ ?_ ?_ ?_ ?_ ?_ ?_ ?_ ?_ ?_ ?_
    e func fuel h
  all_goals intros
  all_goals try intro hh
  all_goals
    simp_all [Expr.transform, transformChildren, transformList, transformOpt,
      Iter.transform, transformIterList]

/-- Witness for C8 at a concrete input. -/
theorem claim8_transform_noop_witness :
    Expr.transform ⟨0, .Let ⟨"x", 0⟩ ⟨0, .I32Literal 1⟩ ⟨0, .Ident ⟨"x", 0⟩⟩⟩
      (fun _ => none) 0 =
      ⟨0, .Let ⟨"x", 0⟩ ⟨0, .I32Literal 1⟩ ⟨0, .Ident ⟨"x", 0⟩⟩⟩ :=
  claim8_transform_noop (fun _ => none) (fun _ => rfl) 0
    ⟨0, .Let ⟨"x", 0⟩ ⟨0, .I32Literal 1⟩ ⟨0, .Ident ⟨"x", 0⟩⟩⟩

/-! ## Claim C1: capture-sensitive substitution -/

theorem substitute_removes_free {T : Type} (e : Expr T) (s : Symbol) (r : Expr T)
    (h : s ∉ r.freeVars) : s ∉ (e.substitute s r).freeVars := by
  refine Expr.substitute.induct
    (fun e sym rep => sym ∉ rep.freeVars → sym ∉ (e.substitute sym rep).freeVars)
    (fun l sym rep => sym ∉ rep.freeVars → sym ∉ freeVarsIterList (substituteIterList l sym rep))
    (fun it sym rep => sym ∉ rep.freeVars → sym ∉ (it.substitute sym rep).freeVars)
    (fun o sym rep => sym ∉ rep.freeVars → sym ∉ freeVarsOpt (substituteOpt o sym rep))
    (fun l sym rep => sym ∉ rep.freeVars → sym ∉ freeVarsList (substituteList l sym rep))
    ?_ ?_ ?_ ?_ ?_ ?_ ?_ ?_ ?_ ?_ ?_ ?_ ?_ ?_ ?_ ?_ ?_ ?_ ?_ ?_ ?_ ?_ ?_ ?_ ?_ ?_ ?_
    e s r h
  all_goals intros
  all_goals try intro hh
  all_goals
    simp_all [Expr.substitute, substituteList, substituteOpt, Iter.substitute,
      substituteIterList, Expr.freeVars, freeVarsList, freeVarsOpt, Iter.freeVars,
      freeVarsIterList]
  -- Ident with a different symbol
  case refine_2 =>
    rename_i hne
    exact fun hq => hne hq.symm
  -- Let: the body is untouched exactly when its name shadows the target
  case refine_3 =>
    rename_i ty0 sym0 rep0 name0 value0 body0 ihv ihb
    by_cases hn : name0 = sym0
    · simp [hn]
    · simp only [if_neg hn]
      intro hmem
      exact absurd hmem ihb
  -- Lambda: the body is untouched exactly when a parameter shadows the target
  case refine_4 =>
    rename_i ty0 sym0 rep0 params0 body0 ihb
    by_cases hp : ∀ x ∈ params0, ¬Parameter.name x = sym0
    · simp only [if_pos hp]
      intro hmem
      exact absurd hmem ihb
    · simp only [if_neg hp]
      intro _
      push_neg at hp
      exact hp

/-- Example symbols for concrete instances. -/
def xsym : Symbol := ⟨"x", 0⟩

def ysym : Symbol := ⟨"y", 0⟩

/-- Claim C1: after `e.substitute(s, r)` no free occurrence of `s` remains
(when `r` itself carries none — occurrences spliced in by `r` are the stated
exception), shadowed subtrees are unchanged (the body of a `Let` binding `s`
and the body of a `Lambda` with a parameter named `s`), substitution always
descends into a `Let` value and into its body exactly when the bound name
differs, and an `Ident(s)` node itself is replaced wholesale by `r`. -/
theorem claim1_substitute {T : Type} (e r : Expr T) (s : Symbol) :
    (s ∉ r.freeVars → s ∉ (e.substitute s r).freeVars) ∧
    (∀ (ty : T) (n : Symbol) (v b : Expr T), n = s →
      (⟨ty, .Let n v b⟩ : Expr T).substitute s r = ⟨ty, .Let n (v.substitute s r) b⟩) ∧
    (∀ (ty : T) (n : Symbol) (v b : Expr T), n ≠ s →
      (⟨ty, .Let n v b⟩ : Expr T).substitute s r =
        ⟨ty, .Let n (v.substitute s r) (b.substitute s r)⟩) ∧
    (∀ (ty : T) (ps : List (Parameter T)) (b : Expr T), (∃ p ∈ ps, p.name = s) →
      (⟨ty, .Lambda ps b⟩ : Expr T).substitute s r = ⟨ty, .Lambda ps b⟩) ∧
    (∀ (ty : T) (ps : List (Parameter T)) (b : Expr T), (∀ p ∈ ps, p.name ≠ s) →
      (⟨ty, .Lambda ps b⟩ : Expr T).substitute s r = ⟨ty, .Lambda ps (b.substitute s r)⟩) ∧
    (∀ ty : T, (⟨ty, .Ident s⟩ : Expr T).substitute s r = r) := by
  refine ⟨substitute_removes_free e s r, ?_, ?_, ?_, ?_, ?_⟩
  · intro ty n v b hn
    simp [Expr.substitute, hn]
  · intro ty n v b hn
    simp [Expr.substitute, hn]
  · intro ty ps b hex
    have hall : ¬(ps.all (fun p => p.name ≠ s)) := by
      simp only [List.all_eq_true, decide_eq_true_eq]
      push_neg
      obtain ⟨p, hp, hname⟩ := hex
      exact ⟨p, hp, by simp [hname]⟩
    simp [Expr.substitute, hall]
    intro hforall
    obtain ⟨p, hp, hname⟩ := hex
    exact absurd hname (hforall p hp)
  · intro ty ps b hall
    have hall2 : ps.all (fun p => p.name ≠ s) := by
      simp only [List.all_eq_true, decide_eq_true_eq]
      exact hall
    simp [Expr.substitute, hall2]
    intro x hx hname
    exact absurd hname (hall x hx)
  · intro ty
    simp [Expr.substitute]

/-- Witness for C1 at a concrete input: substituting `5` for `x` in
`Ident(x)` yields `5`, and the freeness hypothesis is discharged by
computation. -/
theorem claim1_substitute_witness :
    xsym ∉ (⟨0, .I32Literal 5⟩ : Expr Nat).freeVars ∧
    xsym ∉ ((⟨0, .Ident xsym⟩ : Expr Nat).substitute xsym ⟨0, .I32Literal 5⟩).freeVars ∧
    ((⟨0, .Ident xsym⟩ : Expr Nat).substitute xsym ⟨0, .I32Literal 5⟩ = ⟨0, .I32Literal 5⟩) :=
  ⟨by decide,
   (claim1_substitute (⟨0, .Ident xsym⟩ : Expr Nat) ⟨0, .I32Literal 5⟩ xsym).1 (by decide),
   (claim1_substitute (⟨0, .Ident xsym⟩ : Expr Nat) ⟨0, .I32Literal 5⟩ xsym).2.2.2.2.2 0⟩

/-! ## Claim C7: traverse visits size(e) nodes in pre-order -/

theorem preorderList_eq_flatMap {T : Type} (cs : List (Expr T)) :
    preorderList cs = cs.flatMap Expr.preorder := by
  induction cs with
  | nil => simp [preorderList]
  | cons c cs ih => simp [preorderList, List.flatMap_cons, ih]

theorem traverse_eq_foldl {T σ : Type} (f : σ → Expr T → σ) (e : Expr T) :
    ∀ s : σ, e.traverse f s = (e.preorder).foldl f s := by
  refine Expr.preorder.induct
    (fun e => ∀ s : σ, e.traverse f s = (e.preorder).foldl f s)
    (fun cs => ∀ s : σ, traverseList cs f s = (preorderList cs).foldl f s)
    ?_ ?_ ?_ e
  · intro e ih s
    rw [Expr.traverse, Expr.preorder, List.foldl_cons, ih]
  · intro s
    simp [traverseList, preorderList]
  · intro c cs ihc ihcs s
    simp [traverseList, preorderList, List.foldl_append, ihc, ihcs]

theorem preorder_length_eq_size {T : Type} (e : Expr T) :
    (e.preorder).length = e.size := by
  refine Expr.preorder.induct
    (fun e => (e.preorder).length = e.size)
    (fun cs => (preorderList cs).length = sizeList cs)
    ?_ ?_ ?_ e
  · intro e ih
    rw [Expr.preorder, Expr.size, List.length_cons, ih, Nat.add_comm]
  · simp [preorderList, sizeList]
  · intro c cs ihc ihcs
    simp [preorderList, sizeList, ihc, ihcs]

/-- Claim C7: `traverse` invokes its visitor exactly `size e` times, where
`size` is recursively one plus the sum of the sizes of the children, and the
invocations happen in depth-first pre-order — the visited sequence
(`preorder`, of which `traverse` is the fold) starts at the node itself and
continues through the children subtrees in enumeration order. -/
theorem claim7_traverse_preorder_size {T σ : Type} (f : σ → Expr T → σ) (s : σ)
    (e : Expr T) :
    e.traverse f s = (e.preorder).foldl f s ∧
    (e.preorder).length = e.size ∧
    e.preorder = e :: e.children.flatMap Expr.preorder := by
  refine ⟨traverse_eq_foldl f e s, preorder_length_eq_size e, ?_⟩
  rw [Expr.preorder, preorderList_eq_flatMap]

/-! ## Symbol map lemmas -/

/-- The map invariant of the synchronized walk: every recorded pair maps a
left symbol to its image under the renaming `r`. -/
def mapRel (r : Symbol → Symbol) (m : SymMap) : Prop :=
  ∀ p ∈ m, p.2 = r p.1

theorem mapRel_nil (r : Symbol → Symbol) : mapRel r [] := by
  intro p hp
  cases hp

theorem mapRel_cons {r : Symbol → Symbol} {m : SymMap} {a b : Symbol}
    (h : mapRel r m) (hab : b = r a) : mapRel r ((a, b) :: m) := by
  intro p hp
  rcases List.mem_cons.mp hp with h1 | h1
  · subst h1; exact hab
  · exact h p h1

theorem lookup_mem {m : SymMap} {k v : Symbol} (h : SymMap.lookup m k = some v) :
    (k, v) ∈ m := by
  induction m with
  | nil => simp [SymMap.lookup] at h
  | cons p t ih =>
    obtain ⟨a, b⟩ := p
    rw [SymMap.lookup] at h
    by_cases hk : a = k
    · simp [hk] at h
      subst hk
      subst h
      exact List.mem_cons_self _ _
    · simp [hk] at h
      exact List.mem_cons_of_mem _ (ih h)

theorem mem_keys_lookup {m : SymMap} {s : Symbol} (h : s ∈ SymMap.keys m) :
    ∃ v, SymMap.lookup m s = some v := by
  induction m with
  | nil => simp [SymMap.keys] at h
  | cons p t ih =>
    obtain ⟨a, b⟩ := p
    by_cases hk : a = s
    · exact ⟨b, by simp [SymMap.lookup, hk]⟩
    · simp [SymMap.keys, hk] at h
      rcases h with h1 | h1
      · exact absurd h1.symm hk
      · obtain ⟨v, hv⟩ := ih (by simp [SymMap.keys, h1])
        exact ⟨v, by simp [SymMap.lookup, hk, hv]⟩

theorem keys_cons (a b : Symbol) (m : SymMap) :
    SymMap.keys ((a, b) :: m) = a :: SymMap.keys m := rfl

/-- Keys of the `Lambda` parameter-pair fold: the inserted left parameter
names plus the previous keys. -/
theorem foldl_insert_keys {T : Type} (l : List (Parameter T × Parameter T)) :
    ∀ (m : SymMap) (s : Symbol),
      s ∈ SymMap.keys (l.foldl (fun acc p => (p.1.name, p.2.name) :: acc) m) ↔
        ((∃ p ∈ l, p.1.name = s) ∨ s ∈ SymMap.keys m) := by
  induction l with
  | nil => simp
  | cons q t ih =>
    intro m s
    rw [List.foldl_cons, ih, keys_cons]
    constructor
    · rintro (⟨p, hp, hname⟩ | hm)
      · exact Or.inl ⟨p, List.mem_cons_of_mem _ hp, hname⟩
      · rcases List.mem_cons.mp hm with h1 | h1
        · exact Or.inl ⟨q, List.mem_cons_self _ _, h1.symm⟩
        · exact Or.inr h1
    · rintro (⟨p, hp, hname⟩ | hm)
      · rcases List.mem_cons.mp hp with h1 | h1
        · subst h1
          exact Or.inr (List.mem_cons.mpr (Or.inl hname.symm))
        · exact Or.inl ⟨p, h1, hname⟩
      · exact Or.inr (List.mem_cons.mpr (Or.inr hm))

theorem foldl_insert_mapRel {T : Type} {r : Symbol → Symbol}
    (l : List (Parameter T × Parameter T)) :
    ∀ (m : SymMap), mapRel r m → (∀ p ∈ l, p.2.name = r p.1.name) →
      mapRel r (l.foldl (fun acc p => (p.1.name, p.2.name) :: acc) m) := by
  induction l with
  | nil => intro m hm _; exact hm
  | cons q t ih =>
    intro m hm hrel
    rw [List.foldl_cons]
    refine ih _ (mapRel_cons hm (hrel q (List.mem_cons_self _ _))) ?_
    intro p hp
    exact hrel p (List.mem_cons_of_mem _ hp)

theorem zip_self_all {T : Type} (ps : List (Parameter T)) (f : Parameter T × Parameter T → Bool)
    (h : ∀ p, f (p, p) = true) : (ps.zip ps).all f = true := by
  induction ps with
  | nil => rfl
  | cons p t ih => simp [List.zip_cons_cons, h, ih]

theorem mem_zip_self {α : Type} {l : List α} {p : α × α} (h : p ∈ l.zip l) :
    p.2 = p.1 := by
  induction l with
  | nil => cases h
  | cons a t ih =>
    rcases List.mem_cons.mp h with h1 | h1
    · simp [h1]
    · exact ih h1

/-- IEEE `==` is reflexive away from NaN. -/
theorem Flt.feq_self {v : Flt} (h : v.isNaN = false) : Flt.feq v v = true := by
  cases v with
  | nan => simp [Flt.isNaN] at h
  | val a => simp [Flt.feq]

/-- `same_kind` on a NaN-free kind against itself: either `Ok(true)`, or the
undefined-symbol error from an unmapped `Ident` (leaving the map unchanged);
never `Ok(false)`, and the identity map invariant is preserved.  (At a NaN
float literal the guard `l == r` fails against itself, so the NaN-freeness
hypothesis is exactly what the literal arms need.) -/
theorem kindCheck_self {T : Type} [DecidableEq T] (k : ExprKind T) (m : SymMap)
    (hrel : mapRel (fun s => s) m) (hnf : kindNanFree k = true) :
    ((kindCheck k k m).1 = .ok true ∨
      ((kindCheck k k m).1 = .error undefinedSymbolMsg ∧ (kindCheck k k m).2 = m)) ∧
    mapRel (fun s => s) (kindCheck k k m).2 := by
  cases k with
  | Ident l =>
    rcases hl : SymMap.lookup m l with _ | v
    · simp [kindCheck, hl]
      exact hrel
    · have hv : v = l := hrel (l, v) (lookup_mem hl)
      simp [kindCheck, hl, hv]
      exact hrel
  | Let n v b =>
    refine ⟨Or.inl (by simp [kindCheck]), ?_⟩
    simp only [kindCheck]
    exact mapRel_cons hrel rfl
  | Lambda ps b =>
    have hall : (ps.zip ps).all (fun t => t.1.ty = t.2.ty) = true :=
      zip_self_all ps _ (fun p => by simp)
    refine ⟨Or.inl ?_, ?_⟩
    · simp [kindCheck, hall]
    · simp only [kindCheck]
      rw [if_pos ⟨trivial, hall⟩]
      exact foldl_insert_mapRel _ m hrel (fun p hp => by rw [mem_zip_self hp])
  | F32Literal v =>
    have hv : Flt.feq v v = true := Flt.feq_self (by simpa [kindNanFree] using hnf)
    exact ⟨Or.inl (by simp [kindCheck, hv]), by simpa [kindCheck, hv] using hrel⟩
  | F64Literal v =>
    have hv : Flt.feq v v = true := Flt.feq_self (by simpa [kindNanFree] using hnf)
    exact ⟨Or.inl (by simp [kindCheck, hv]), by simpa [kindCheck, hv] using hrel⟩
  | _ => exact ⟨Or.inl (by simp [kindCheck]), by simpa [kindCheck] using hrel⟩

/-! ## Free-variable and binder-name decomposition over the child lists -/

theorem freeVarsList_append {T : Type} (as bs : List (Expr T)) :
    freeVarsList (as ++ bs) = freeVarsList as ++ freeVarsList bs := by
  induction as with
  | nil => simp [freeVarsList]
  | cons a t ih => simp [freeVarsList, ih]

theorem freeVarsList_iter_children {T : Type} (it : Iter T) :
    freeVarsList it.children = it.freeVars := by
  obtain ⟨d, s, e, st⟩ := it
  cases s <;> cases e <;> cases st <;>
    simp [Iter.children, Iter.freeVars, freeVarsList, freeVarsOpt, freeVarsList_append]

theorem freeVarsList_flatMap {T : Type} (its : List (Iter T)) :
    freeVarsList (its.flatMap Iter.children) = freeVarsIterList its := by
  induction its with
  | nil => simp [freeVarsList, freeVarsIterList]
  | cons it t ih =>
    simp [List.flatMap_cons, freeVarsList_append, freeVarsList_iter_children, ih,
      freeVarsIterList]

theorem binderNamesList_append {T : Type} (as bs : List (Expr T)) :
    binderNamesList (as ++ bs) = binderNamesList as ++ binderNamesList bs := by
  induction as with
  | nil => simp [binderNamesList]
  | cons a t ih => simp [binderNamesList, ih]

theorem binderNamesList_iter_children {T : Type} (it : Iter T) :
    binderNamesList it.children = it.binderNames := by
  obtain ⟨d, s, e, st⟩ := it
  cases s <;> cases e <;> cases st <;>
    simp [Iter.children, Iter.binderNames, binderNamesList, binderNamesOpt,
      binderNamesList_append]

theorem binderNamesList_flatMap {T : Type} (its : List (Iter T)) :
    binderNamesList (its.flatMap Iter.children) = binderNamesIterList its := by
  induction its with
  | nil => simp [binderNamesList, binderNamesIterList]
  | cons it t ih =>
    simp [List.flatMap_cons, binderNamesList_append, binderNamesList_iter_children, ih,
      binderNamesIterList]

/-- Free symbols of the children list: each is free at the node itself or
bound by the node (a `Let` name or `Lambda` parameter — exactly what the
`same_kind` arm of the comparison inserts into the map). -/
theorem fv_children {T : Type} (e : Expr T) :
    ∀ s ∈ freeVarsList e.children, s ∈ e.freeVars ∨ s ∈ kindBinders e.kind := by
  obtain ⟨t, k⟩ := e
  cases k with
  | Let n v b =>
    intro s hs
    simp only [Expr.children, Expr.kind, freeVarsList, Expr.freeVars, kindBinders,
      List.append_nil, List.mem_append] at hs ⊢
    rcases hs with h1 | h1
    · exact Or.inl (Or.inl h1)
    · by_cases hn : s = n
      · exact Or.inr (by simp [hn])
      · exact Or.inl (Or.inr (List.mem_filter.mpr ⟨h1, by simp [hn]⟩))
  | Lambda ps b =>
    intro s hs
    simp only [Expr.children, Expr.kind, freeVarsList, Expr.freeVars, kindBinders,
      List.append_nil] at hs ⊢
    by_cases hp : ∀ p ∈ ps, ¬p.name = s
    · refine Or.inl (List.mem_filter.mpr ⟨hs, ?_⟩)
      simp only [List.all_eq_true, decide_eq_true_eq]
      exact hp
    · push_neg at hp
      obtain ⟨p, hpm, hname⟩ := hp
      exact Or.inr (List.mem_map.mpr ⟨p, hpm, hname⟩)
  | For its b f =>
    intro s hs
    simp only [Expr.children, Expr.kind, freeVarsList, Expr.freeVars, kindBinders,
      freeVarsList_append, freeVarsList_flatMap, List.append_nil, List.mem_append] at hs ⊢
    tauto
  | _ =>
    intro s hs
    simp_all [Expr.children, Expr.kind, freeVarsList, Expr.freeVars, kindBinders,
      freeVarsList_append, freeVarsList_flatMap]
  <;> tauto

/-- A free symbol of a node is the node itself as an `Ident`, or a free
symbol of one of its children. -/
theorem fv_node {T : Type} (e : Expr T) :
    ∀ s ∈ e.freeVars, e.kind = .Ident s ∨ s ∈ freeVarsList e.children := by
  obtain ⟨t, k⟩ := e
  cases k with
  | Let n v b =>
    intro s hs
    simp only [Expr.children, Expr.kind, freeVarsList, Expr.freeVars,
      List.append_nil, List.mem_append] at hs ⊢
    rcases hs with h1 | h1
    · exact Or.inr (Or.inl h1)
    · exact Or.inr (Or.inr (List.mem_filter.mp h1).1)
  | Lambda ps b =>
    intro s hs
    simp only [Expr.children, Expr.kind, freeVarsList, Expr.freeVars,
      List.append_nil] at hs ⊢
    exact Or.inr (List.mem_filter.mp hs).1
  | For its b f =>
    intro s hs
    simp only [Expr.children, Expr.kind, freeVarsList, Expr.freeVars,
      freeVarsList_append, freeVarsList_flatMap, List.append_nil, List.mem_append] at hs ⊢
    tauto
  | _ =>
    intro s hs
    simp_all [Expr.children, Expr.kind, freeVarsList, Expr.freeVars,
      freeVarsList_append, freeVarsList_flatMap]
  <;> tauto

/-- Binders recorded at a node and binders of its children are all binder
names of the node. -/
theorem bn_children {T : Type} (e : Expr T) :
    (∀ s ∈ kindBinders e.kind, s ∈ e.binderNames) ∧
    (∀ s ∈ binderNamesList e.children, s ∈ e.binderNames) := by
  obtain ⟨t, k⟩ := e
  cases k <;>
    constructor <;>
    intro s hs <;>
    simp_all [Expr.children, Expr.kind, binderNamesList, Expr.binderNames, kindBinders,
      binderNamesList_append, binderNamesList_flatMap]
  <;> tauto

/-! ## NaN-freeness decomposition over the child lists -/

theorem nanFreeList_append {T : Type} (as bs : List (Expr T)) :
    nanFreeList (as ++ bs) = (nanFreeList as && nanFreeList bs) := by
  induction as with
  | nil => simp [nanFreeList]
  | cons a t ih => simp [nanFreeList, ih, Bool.and_assoc]

theorem nanFreeList_iter_children {T : Type} (it : Iter T) :
    nanFreeList it.children = it.nanFree := by
  obtain ⟨d, s, e, st⟩ := it
  cases s <;> cases e <;> cases st <;>
    simp [Iter.children, Iter.nanFree, nanFreeList, nanFreeOpt, nanFreeList_append,
      Bool.and_assoc]

theorem nanFreeList_flatMap {T : Type} (its : List (Iter T)) :
    nanFreeList (its.flatMap Iter.children) = nanFreeIterList its := by
  induction its with
  | nil => simp [nanFreeList, nanFreeIterList]
  | cons it t ih =>
    simp [List.flatMap_cons, nanFreeList_append, nanFreeList_iter_children, ih,
      nanFreeIterList]

theorem nanFreeList_cons_parts {T : Type} {c : Expr T} {cs : List (Expr T)}
    (h : nanFreeList (c :: cs) = true) : c.nanFree = true ∧ nanFreeList cs = true := by
  rw [nanFreeList, Bool.and_eq_true] at h
  exact h

theorem nanFreeList_mem {T : Type} : ∀ {cs : List (Expr T)}, nanFreeList cs = true →
    ∀ {c : Expr T}, c ∈ cs → c.nanFree = true := by
  intro cs
  induction cs with
  | nil =>
    intro h c hc
    cases hc
  | cons a t ih =>
    intro h c hc
    obtain ⟨h1, h2⟩ := nanFreeList_cons_parts h
    rcases List.mem_cons.mp hc with h3 | h3
    · subst h3
      exact h1
    · exact ih h2 h3

/-- A NaN-free tree is NaN-free at the node itself and in every child. -/
theorem nanFree_children {T : Type} (e : Expr T) (h : e.nanFree = true) :
    kindNanFree e.kind = true ∧ nanFreeList e.children = true := by
  obtain ⟨t, k⟩ := e
  cases k <;>
    simp_all [Expr.nanFree, Expr.children, Expr.kind, kindNanFree, nanFreeList,
      nanFreeList_append, nanFreeList_flatMap]

/-! ## kindCheck bounds: keys only grow, and only by the node binders -/

theorem kindCheck_keys {T : Type} [DecidableEq T] (k1 k2 : ExprKind T) (m : SymMap) :
    (∀ s ∈ SymMap.keys m, s ∈ SymMap.keys (kindCheck k1 k2 m).2) ∧
    (∀ s ∈ SymMap.keys (kindCheck k1 k2 m).2, s ∈ SymMap.keys m ∨ s ∈ kindBinders k1) ∧
    (∀ msg, (kindCheck k1 k2 m).1 = .error msg →
      msg = undefinedSymbolMsg ∧ (kindCheck k1 k2 m).2 = m) := by
  cases k1 <;> cases k2
  all_goals try
    (dsimp only [kindCheck] <;> (try split_ifs) <;>
      exact ⟨fun s hs => hs, fun s hs => Or.inl hs, fun msg hmsg => by simp at hmsg⟩)
  case Let.Let =>
    refine ⟨fun s hs => ?_, fun s hs => ?_, fun msg hmsg => by simp [kindCheck] at hmsg⟩
    · dsimp only [kindCheck]
      rw [keys_cons]
      exact List.mem_cons_of_mem _ hs
    · dsimp only [kindCheck] at hs
      rw [keys_cons] at hs
      rcases List.mem_cons.mp hs with h | h
      · exact Or.inr (by simp [kindBinders, h])
      · exact Or.inl h
  case Lambda.Lambda =>
    dsimp only [kindCheck]
    split_ifs with hc
    · refine ⟨fun s hs => ?_, fun s hs => ?_, fun msg hmsg => by simp at hmsg⟩
      · exact (foldl_insert_keys _ _ _).mpr (Or.inr hs)
      · rcases (foldl_insert_keys _ _ _).mp hs with ⟨p, hp, hname⟩ | h
        · exact Or.inr (by
            simp only [kindBinders]
            exact List.mem_map.mpr ⟨p.1, (List.of_mem_zip hp).1, hname⟩)
        · exact Or.inl h
    · exact ⟨fun s hs => hs, fun s hs => Or.inl hs, fun msg hmsg => by simp at hmsg⟩
  case Ident.Ident =>
    rename_i l1 l2
    dsimp only [kindCheck]
    rcases hl : SymMap.lookup m l1 with _ | v <;> simp [hl, kindBinders] <;> tauto

/-- `same_kind` under the shape relation: it answers `Ok(payloadLocal)`,
extends the map only with renaming-consistent binder pairs, and afterwards
every node binder of the left kind is a key. -/
theorem kindCheck_rel {T : Type} [DecidableEq T] {r : Symbol → Symbol}
    {k1 k2 : ExprKind T} {m : SymMap}
    (hsk : skelKindLocal r k1 k2 = true) (hrel : mapRel r m)
    (hid : ∀ l, k1 = .Ident l → l ∈ SymMap.keys m) :
    (kindCheck k1 k2 m).1 = .ok (payloadLocal k1 k2) ∧
    mapRel r (kindCheck k1 k2 m).2 ∧
    (∀ s ∈ kindBinders k1, s ∈ SymMap.keys (kindCheck k1 k2 m).2) := by
  cases k1 <;> cases k2
  all_goals try (simp [skelKindLocal] at hsk)
  -- shape-only kinds: Ok(true), map untouched, no binders
  all_goals try
    exact ⟨by simp [kindCheck, payloadLocal], hrel, by simp [kindCheck, kindBinders]⟩
  case BinOp.BinOp =>
    dsimp only [kindCheck]
    split_ifs with hc <;>
      exact ⟨by simp [payloadLocal, hc], hrel, by simp [kindBinders]⟩
  case BoolLiteral.BoolLiteral =>
    dsimp only [kindCheck]
    split_ifs with hc <;>
      exact ⟨by simp [payloadLocal, hc], hrel, by simp [kindBinders]⟩
  case I32Literal.I32Literal =>
    dsimp only [kindCheck]
    split_ifs with hc <;>
      exact ⟨by simp [payloadLocal, hc], hrel, by simp [kindBinders]⟩
  case I64Literal.I64Literal =>
    dsimp only [kindCheck]
    split_ifs with hc <;>
      exact ⟨by simp [payloadLocal, hc], hrel, by simp [kindBinders]⟩
  case F32Literal.F32Literal =>
    rename_i l rr
    dsimp only [kindCheck]
    cases hc : Flt.feq l rr <;>
      exact ⟨by simp [payloadLocal, hc], by simpa using hrel, by simp [kindBinders]⟩
  case F64Literal.F64Literal =>
    rename_i l rr
    dsimp only [kindCheck]
    cases hc : Flt.feq l rr <;>
      exact ⟨by simp [payloadLocal, hc], by simpa using hrel, by simp [kindBinders]⟩
  case GetField.GetField =>
    dsimp only [kindCheck]
    rw [if_pos hsk]
    exact ⟨by simp [payloadLocal, hsk], hrel, by simp [kindBinders]⟩
  case Let.Let =>
    dsimp only [kindCheck]
    refine ⟨by simp [payloadLocal], mapRel_cons hrel hsk, ?_⟩
    intro s hs
    simp only [kindBinders, List.mem_singleton] at hs
    rw [hs, keys_cons]
    exact List.mem_cons_self _ _
  case Lambda.Lambda =>
    rename_i ps1 b1 ps2 b2
    obtain ⟨hlen, hall⟩ := hsk
    have hallty : (ps1.zip ps2).all (fun t => t.1.ty = t.2.ty) = true := by
      simp only [List.all_eq_true, decide_eq_true_eq]
      exact fun p hp => (hall p.1 p.2 hp).1
    dsimp only [kindCheck]
    rw [if_pos ⟨hlen, hallty⟩]
    refine ⟨by simp [payloadLocal], ?_, ?_⟩
    · exact foldl_insert_mapRel _ m hrel (fun p hp => (hall p.1 p.2 hp).2)
    · intro s hs
      simp only [kindBinders, List.mem_map] at hs
      obtain ⟨q, hq, hname⟩ := hs
      have hq2 : q ∈ (ps1.zip ps2).map Prod.fst := by
        rw [List.map_fst_zip ps1 ps2 (le_of_eq hlen)]
        exact hq
      obtain ⟨p, hp, hfst⟩ := List.mem_map.mp hq2
      exact (foldl_insert_keys _ _ _).mpr (Or.inl ⟨p, hp, by rw [hfst, hname]⟩)
  case Ident.Ident =>
    rename_i l1 l2
    obtain ⟨v, hv⟩ := mem_keys_lookup (hid l1 rfl)
    have hvr : v = r l1 := hrel (l1, v) (lookup_mem hv)
    dsimp only [kindCheck]
    rw [hv]
    exact ⟨by simp [payloadLocal, hvr, hsk], hrel, by simp [kindBinders]⟩

/-! ## Unfolding equations for the comparison -/

theorem cmp_of_ty_ne {T : Type} [DecidableEq T] {e1 e2 : Expr T} (m : SymMap)
    (hty : e1.ty ≠ e2.ty) : cmp e1 e2 m = (.ok false, m) := by
  rw [cmp, if_pos hty]

theorem cmp_of_error {T : Type} [DecidableEq T] {e1 e2 : Expr T} {m m1 : SymMap}
    {msg : String} (hty : e1.ty = e2.ty)
    (hkc : kindCheck e1.kind e2.kind m = (.error msg, m1)) :
    cmp e1 e2 m = (.error msg, m1) := by
  rw [cmp, if_neg (by simp [hty]), hkc]

theorem cmp_of_ok_false {T : Type} [DecidableEq T] {e1 e2 : Expr T} {m m1 : SymMap}
    (hty : e1.ty = e2.ty)
    (hkc : kindCheck e1.kind e2.kind m = (.ok false, m1)) :
    cmp e1 e2 m = (.ok false, m1) := by
  rw [cmp, if_neg (by simp [hty]), hkc]

theorem cmp_of_len_ne {T : Type} [DecidableEq T] {e1 e2 : Expr T} {m m1 : SymMap}
    (hty : e1.ty = e2.ty)
    (hkc : kindCheck e1.kind e2.kind m = (.ok true, m1))
    (hlen : e1.children.length ≠ e2.children.length) :
    cmp e1 e2 m = (.ok false, m1) := by
  rw [cmp, if_neg (by simp [hty]), hkc]
  simp [hlen]

theorem cmp_of_ok_true {T : Type} [DecidableEq T] {e1 e2 : Expr T} {m m1 : SymMap}
    (hty : e1.ty = e2.ty)
    (hkc : kindCheck e1.kind e2.kind m = (.ok true, m1))
    (hlen : e1.children.length = e2.children.length) :
    cmp e1 e2 m = cmpList e1.children e2.children m1 := by
  rw [cmp, if_neg (by simp [hty]), hkc]
  simp [hlen]

theorem cmpList_nil_left {T : Type} [DecidableEq T] (bs : List (Expr T)) (m : SymMap) :
    cmpList [] bs m = (.ok true, m) := by
  cases bs <;> rw [cmpList]

theorem cmpList_cons_nil {T : Type} [DecidableEq T] (c : Expr T) (cs : List (Expr T))
    (m : SymMap) : cmpList (c :: cs) [] m = (.ok true, m) := by
  rw [cmpList]

theorem cmpList_cons_ok_true {T : Type} [DecidableEq T] {c d : Expr T}
    {cs ds : List (Expr T)} {m m1 : SymMap} (h : cmp c d m = (.ok true, m1)) :
    cmpList (c :: cs) (d :: ds) m = cmpList cs ds m1 := by
  rw [cmpList, h]

theorem cmpList_cons_other {T : Type} [DecidableEq T] {c d : Expr T}
    {cs ds : List (Expr T)} {m m1 : SymMap} {x : Except String Bool}
    (h : cmp c d m = (x, m1)) (hx : x ≠ .ok true) :
    cmpList (c :: cs) (d :: ds) m = (x, m1) := by
  rw [cmpList, h]
  rcases x with msg | b
  · rfl
  · cases b
    · rfl
    · exact absurd rfl hx

/-! ## Keys of the threaded map: monotone growth, bounded by binder names -/

theorem cmp_keys_bounds {T : Type} [DecidableEq T] : ∀ (e1 e2 : Expr T) (m : SymMap),
    (∀ s ∈ SymMap.keys m, s ∈ SymMap.keys (cmp e1 e2 m).2) ∧
    (∀ s ∈ SymMap.keys (cmp e1 e2 m).2, s ∈ SymMap.keys m ∨ s ∈ e1.binderNames) := by
  refine cmp.induct
    (fun e1 e2 m =>
      (∀ s ∈ SymMap.keys m, s ∈ SymMap.keys (cmp e1 e2 m).2) ∧
      (∀ s ∈ SymMap.keys (cmp e1 e2 m).2, s ∈ SymMap.keys m ∨ s ∈ e1.binderNames))
    (fun as bs m =>
      (∀ s ∈ SymMap.keys m, s ∈ SymMap.keys (cmpList as bs m).2) ∧
      (∀ s ∈ SymMap.keys (cmpList as bs m).2,
        s ∈ SymMap.keys m ∨ s ∈ binderNamesList as))
    ?_ ?_ ?_ ?_ ?_ ?_ ?_ ?_ ?_
  · intro e1 e2 m hty
    rw [cmp_of_ty_ne m hty]
    exact ⟨fun s hs => hs, fun s hs => Or.inl hs⟩
  · intro e1 e2 m hty msg m1 hkc
    have herr := (kindCheck_keys e1.kind e2.kind m).2.2 msg (by rw [hkc])
    have hm1 : m1 = m := by
      have := herr.2
      rw [hkc] at this
      exact this
    rw [cmp_of_error (not_not.mp hty) hkc, hm1]
    exact ⟨fun s hs => hs, fun s hs => Or.inl hs⟩
  · intro e1 e2 m hty m1 hkc
    have hk := kindCheck_keys e1.kind e2.kind m
    rw [hkc] at hk
    rw [cmp_of_ok_false (not_not.mp hty) hkc]
    exact ⟨hk.1, fun s hs => (hk.2.1 s hs).imp id (fun h => (bn_children e1).1 s h)⟩
  · intro e1 e2 m hty m1 hkc hlen
    have hk := kindCheck_keys e1.kind e2.kind m
    rw [hkc] at hk
    rw [cmp_of_len_ne (not_not.mp hty) hkc hlen]
    exact ⟨hk.1, fun s hs => (hk.2.1 s hs).imp id (fun h => (bn_children e1).1 s h)⟩
  · intro e1 e2 m hty m1 hkc hlen ih
    have hk := kindCheck_keys e1.kind e2.kind m
    rw [hkc] at hk
    rw [cmp_of_ok_true (not_not.mp hty) hkc (not_not.mp hlen)]
    constructor
    · exact fun s hs => ih.1 s (hk.1 s hs)
    · intro s hs
      rcases ih.2 s hs with h | h
      · exact (hk.2.1 s h).imp id (fun h2 => (bn_children e1).1 s h2)
      · exact Or.inr ((bn_children e1).2 s h)
  · intro bs m
    rw [cmpList_nil_left]
    exact ⟨fun s hs => hs, fun s hs => Or.inl hs⟩
  · intro c cs m
    rw [cmpList_cons_nil]
    exact ⟨fun s hs => hs, fun s hs => Or.inl hs⟩
  · intro c1 cs1 c2 cs2 m m1 hcmp ih1 ih2
    rw [cmpList_cons_ok_true hcmp]
    have ih1a := ih1.1
    have ih1b := ih1.2
    rw [hcmp] at ih1a ih1b
    constructor
    · exact fun s hs => ih2.1 s (ih1a s hs)
    · intro s hs
      rcases ih2.2 s hs with h | h
      · rcases ih1b s h with h2 | h2
        · exact Or.inl h2
        · exact Or.inr (by simp [binderNamesList, h2])
      · exact Or.inr (by simp [binderNamesList, h])
  · intro c1 cs1 c2 cs2 m hne ih1
    rcases hx : cmp c1 c2 m with ⟨x, m1⟩
    have hxne : x ≠ .ok true := by
      intro hxe
      exact hne m1 (by rw [hx, hxe])
    rw [cmpList_cons_other hx hxne]
    have ih1a := ih1.1
    have ih1b := ih1.2
    rw [hx] at ih1a ih1b
    exact ⟨ih1a, fun s hs => (ih1b s hs).imp id (fun h => by simp [binderNamesList, h])⟩

theorem mem_keys_of_lookup {m : SymMap} {k v : Symbol}
    (h : SymMap.lookup m k = some v) : k ∈ SymMap.keys m := by
  have := lookup_mem h
  exact List.mem_map.mpr ⟨(k, v), this, rfl⟩

theorem kindCheck_ident_key {T : Type} [DecidableEq T] {l l2 : Symbol} {m m1 : SymMap}
    {b : Bool}
    (h : kindCheck (T := T) (.Ident l) (.Ident l2) m = (.ok b, m1)) :
    l ∈ SymMap.keys m := by
  dsimp only [kindCheck] at h
  rcases hl : SymMap.lookup m l with _ | v
  · rw [hl] at h
    cases h
  · exact mem_keys_of_lookup hl

/-! ## Comparing a tree with itself -/

/-- `_compare_ignoring_symbols(e, e)` on a NaN-free tree never answers
`Ok(false)`: it is `Ok(true)` or the undefined-symbol error, and it keeps
every map entry of the form `(s, s)`.  (A NaN float literal fails its own
guard and short-circuits to `Ok(false)`, so NaN-freeness is required.) -/
theorem cmp_self_result {T : Type} [DecidableEq T] : ∀ (e1 e2 : Expr T) (m : SymMap),
    e2 = e1 → e1.nanFree = true → mapRel (fun s => s) m →
    ((cmp e1 e2 m).1 = .ok true ∨ (cmp e1 e2 m).1 = .error undefinedSymbolMsg) ∧
    mapRel (fun s => s) (cmp e1 e2 m).2 := by
  refine cmp.induct
    (fun e1 e2 m => e2 = e1 → e1.nanFree = true → mapRel (fun s => s) m →
      ((cmp e1 e2 m).1 = .ok true ∨ (cmp e1 e2 m).1 = .error undefinedSymbolMsg) ∧
      mapRel (fun s => s) (cmp e1 e2 m).2)
    (fun as bs m => bs = as → nanFreeList as = true → mapRel (fun s => s) m →
      ((cmpList as bs m).1 = .ok true ∨ (cmpList as bs m).1 = .error undefinedSymbolMsg) ∧
      mapRel (fun s => s) (cmpList as bs m).2)
    ?_ ?_ ?_ ?_ ?_ ?_ ?_ ?_ ?_
  · intro e1 e2 m hty he hnf hm
    subst he
    exact absurd rfl hty
  · intro e1 e2 m hty msg m1 hkc he hnf hm
    subst he
    have hks := kindCheck_self e2.kind m hm (nanFree_children e2 hnf).1
    rw [hkc] at hks
    rcases hks.1 with h | h
    · cases h
    · rw [cmp_of_error rfl hkc]
      exact ⟨Or.inr (by rw [h.1]), by rw [h.2]; exact hm⟩
  · intro e1 e2 m hty m1 hkc he hnf hm
    subst he
    have hks := kindCheck_self e2.kind m hm (nanFree_children e2 hnf).1
    rw [hkc] at hks
    rcases hks.1 with h | h
    · cases h
    · cases h.1
  · intro e1 e2 m hty m1 hkc hlen he hnf hm
    subst he
    exact absurd rfl hlen
  · intro e1 e2 m hty m1 hkc hlen ih he hnf hm
    subst he
    have hks := kindCheck_self e2.kind m hm (nanFree_children e2 hnf).1
    rw [hkc] at hks
    rw [cmp_of_ok_true rfl hkc rfl]
    exact ih rfl (nanFree_children e2 hnf).2 hks.2
  · intro bs m hb hnf hm
    rw [cmpList_nil_left]
    exact ⟨Or.inl rfl, hm⟩
  · intro c cs m hb hnf hm
    cases hb
  · intro c1 cs1 c2 cs2 m m1 hcmp ih1 ih2 he hnf hm
    rcases List.cons.injEq .. ▸ he with ⟨he1, he2⟩
    obtain ⟨hnf1, hnf2⟩ := nanFreeList_cons_parts hnf
    have h1 := ih1 he1 hnf1 hm
    rw [hcmp] at h1
    rw [cmpList_cons_ok_true hcmp]
    exact ih2 he2 hnf2 h1.2
  · intro c1 cs1 c2 cs2 m hne ih1 he hnf hm
    rcases List.cons.injEq .. ▸ he with ⟨he1, he2⟩
    obtain ⟨hnf1, hnf2⟩ := nanFreeList_cons_parts hnf
    have h1 := ih1 he1 hnf1 hm
    rcases hx : cmp c1 c2 m with ⟨x, m1⟩
    have hxne : x ≠ .ok true := fun hxe => hne m1 (by rw [hx, hxe])
    rw [cmpList_cons_other hx hxne]
    rw [hx] at h1
    rcases h1.1 with h | h
    · exact absurd h hxne
    · exact ⟨Or.inr h, h1.2⟩

/-- When `_compare_ignoring_symbols(e, e)` answers `Ok(true)`, every free
symbol of `e` was a key of the incoming map or is bound somewhere in `e`
(the stale-mapping leak: sibling binders count too). -/
theorem cmp_self_cover {T : Type} [DecidableEq T] : ∀ (e1 e2 : Expr T) (m : SymMap),
    e2 = e1 → (cmp e1 e2 m).1 = .ok true →
    ∀ s ∈ e1.freeVars, s ∈ SymMap.keys m ∨ s ∈ e1.binderNames := by
  refine cmp.induct
    (fun e1 e2 m => e2 = e1 → (cmp e1 e2 m).1 = .ok true →
      ∀ s ∈ e1.freeVars, s ∈ SymMap.keys m ∨ s ∈ e1.binderNames)
    (fun as bs m => bs = as → (cmpList as bs m).1 = .ok true →
      ∀ s ∈ freeVarsList as, s ∈ SymMap.keys m ∨ s ∈ binderNamesList as)
    ?_ ?_ ?_ ?_ ?_ ?_ ?_ ?_ ?_
  · intro e1 e2 m hty he hok
    subst he
    exact absurd rfl hty
  · intro e1 e2 m hty msg m1 hkc he hok
    rw [cmp_of_error (not_not.mp hty) hkc] at hok
    cases hok
  · intro e1 e2 m hty m1 hkc he hok
    rw [cmp_of_ok_false (not_not.mp hty) hkc] at hok
    cases hok
  · intro e1 e2 m hty m1 hkc hlen he hok
    subst he
    exact absurd rfl hlen
  · intro e1 e2 m hty m1 hkc hlen ih he hok
    subst he
    rw [cmp_of_ok_true rfl hkc rfl] at hok
    intro s hs
    rcases fv_node e2 s hs with hident | hchild
    · rw [hident] at hkc
      exact Or.inl (kindCheck_ident_key hkc)
    · have hk := kindCheck_keys e2.kind e2.kind m
      rw [hkc] at hk
      rcases ih rfl hok s hchild with h | h
      · rcases hk.2.1 s h with h2 | h2
        · exact Or.inl h2
        · exact Or.inr ((bn_children e2).1 s h2)
      · exact Or.inr ((bn_children e2).2 s h)
  · intro bs m hb hok s hs
    simp [freeVarsList] at hs
  · intro c cs m hb hok
    cases hb
  · intro c1 cs1 c2 cs2 m m1 hcmp ih1 ih2 he hok
    rcases List.cons.injEq .. ▸ he with ⟨he1, he2⟩
    rw [cmpList_cons_ok_true hcmp] at hok
    intro s hs
    rw [freeVarsList] at hs
    rcases List.mem_append.mp hs with h | h
    · rcases ih1 he1 (by rw [hcmp]) s h with h2 | h2
      · exact Or.inl h2
      · exact Or.inr (by simp [binderNamesList, h2])
    · rcases ih2 he2 hok s h with h2 | h2
      · have hb := (cmp_keys_bounds c1 c2 m).2
        rw [hcmp] at hb
        rcases hb s h2 with h3 | h3
        · exact Or.inl h3
        · exact Or.inr (by simp [binderNamesList, h3])
      · exact Or.inr (by simp [binderNamesList, h2])
  · intro c1 cs1 c2 cs2 m hne ih1 he hok
    rcases hx : cmp c1 c2 m with ⟨x, m1⟩
    have hxne : x ≠ .ok true := fun hxe => hne m1 (by rw [hx, hxe])
    rw [cmpList_cons_other hx hxne] at hok
    exact absurd hok hxne

/-! ## The master correspondence: cmp under the shape relation -/

theorem skel_parts {T : Type} [DecidableEq T] {r : Symbol → Symbol} {e1 e2 : Expr T}
    (h : skel r e1 e2 = true) :
    e1.ty = e2.ty ∧ skelKindLocal r e1.kind e2.kind = true ∧
      skelList r e1.children e2.children = true := by
  rw [skel] at h
  simpa using h

theorem skel_intro {T : Type} [DecidableEq T] {r : Symbol → Symbol} {e1 e2 : Expr T}
    (h1 : e1.ty = e2.ty) (h2 : skelKindLocal r e1.kind e2.kind = true)
    (h3 : skelList r e1.children e2.children = true) : skel r e1 e2 = true := by
  rw [skel]
  simp [h1, h2, h3]

theorem payloadEq_eq {T : Type} (e1 e2 : Expr T) :
    payloadEq e1 e2 =
      (payloadLocal e1.kind e2.kind && payloadEqList e1.children e2.children) := by
  rw [payloadEq]

theorem payloadEqList_nil_left {T : Type} (bs : List (Expr T)) :
    payloadEqList [] bs = true := by
  cases bs <;> rw [payloadEqList]

theorem payloadEqList_cons {T : Type} (c d : Expr T) (cs ds : List (Expr T)) :
    payloadEqList (c :: cs) (d :: ds) = (payloadEq c d && payloadEqList cs ds) := by
  rw [payloadEqList]

theorem skelList_length {T : Type} [DecidableEq T] {r : Symbol → Symbol} :
    ∀ {as bs : List (Expr T)}, skelList r as bs = true → as.length = bs.length := by
  intro as
  induction as with
  | nil =>
    intro bs h
    cases bs with
    | nil => rfl
    | cons d ds => rw [skelList] at h; cases h
  | cons c cs ih =>
    intro bs h
    cases bs with
    | nil => rw [skelList] at h; cases h
    | cons d ds =>
      rw [skelList, Bool.and_eq_true] at h
      simp [ih h.2]

theorem skelList_cons_parts {T : Type} [DecidableEq T] {r : Symbol → Symbol}
    {c d : Expr T} {cs ds : List (Expr T)} (h : skelList r (c :: cs) (d :: ds) = true) :
    skel r c d = true ∧ skelList r cs ds = true := by
  rw [skelList, Bool.and_eq_true] at h
  exact h

theorem fv_of_ident {T : Type} {e1 : Expr T} {l : Symbol} (h : e1.kind = .Ident l) :
    l ∈ e1.freeVars := by
  obtain ⟨t, k⟩ := e1
  simp only [Expr.kind] at h
  subst h
  simp [Expr.freeVars]

/-- The master correspondence: on shape-related trees with all free symbols
of the left tree mapped, the comparison returns `Ok` of exactly the payload
equality (never an error, never a spurious answer), and the map invariant
is preserved. -/
theorem cmp_master {T : Type} [DecidableEq T] : ∀ (e1 e2 : Expr T) (m : SymMap)
    (r : Symbol → Symbol), mapRel r m → skel r e1 e2 = true →
    (∀ s ∈ e1.freeVars, s ∈ SymMap.keys m) →
    (cmp e1 e2 m).1 = .ok (payloadEq e1 e2) ∧ mapRel r (cmp e1 e2 m).2 := by
  have main : ∀ (e1 e2 : Expr T) (m : SymMap),
      ∀ r : Symbol → Symbol, mapRel r m → skel r e1 e2 = true →
      (∀ s ∈ e1.freeVars, s ∈ SymMap.keys m) →
      (cmp e1 e2 m).1 = .ok (payloadEq e1 e2) ∧ mapRel r (cmp e1 e2 m).2 := by
    refine cmp.induct
      (fun e1 e2 m => ∀ r : Symbol → Symbol, mapRel r m → skel r e1 e2 = true →
        (∀ s ∈ e1.freeVars, s ∈ SymMap.keys m) →
        (cmp e1 e2 m).1 = .ok (payloadEq e1 e2) ∧ mapRel r (cmp e1 e2 m).2)
      (fun as bs m => ∀ r : Symbol → Symbol, mapRel r m → skelList r as bs = true →
        (∀ s ∈ freeVarsList as, s ∈ SymMap.keys m) →
        (cmpList as bs m).1 = .ok (payloadEqList as bs) ∧
          mapRel r (cmpList as bs m).2)
      ?_ ?_ ?_ ?_ ?_ ?_ ?_ ?_ ?_
    · intro e1 e2 m hty r hm hsk hfv
      exact absurd (skel_parts hsk).1 hty
    · intro e1 e2 m hty msg m1 hkc r hm hsk hfv
      have hrel := kindCheck_rel (skel_parts hsk).2.1 hm
        (fun l hl => hfv l (fv_of_ident hl))
      rw [hkc] at hrel
      cases hrel.1
    · intro e1 e2 m hty m1 hkc r hm hsk hfv
      have hrel := kindCheck_rel (skel_parts hsk).2.1 hm
        (fun l hl => hfv l (fv_of_ident hl))
      rw [hkc] at hrel
      have hpl : payloadLocal e1.kind e2.kind = false := by
        rcases hp : payloadLocal e1.kind e2.kind
        · rfl
        · rw [hp] at hrel; cases hrel.1
      rw [cmp_of_ok_false (skel_parts hsk).1 hkc]
      refine ⟨?_, hrel.2.1⟩
      rw [payloadEq_eq, hpl, Bool.false_and]
    · intro e1 e2 m hty m1 hkc hlen r hm hsk hfv
      exact absurd (skelList_length (skel_parts hsk).2.2) hlen
    · intro e1 e2 m hty m1 hkc hlen ih r hm hsk hfv
      have hrel := kindCheck_rel (skel_parts hsk).2.1 hm
        (fun l hl => hfv l (fv_of_ident hl))
      rw [hkc] at hrel
      have hpl : payloadLocal e1.kind e2.kind = true := by
        rcases hp : payloadLocal e1.kind e2.kind
        · rw [hp] at hrel; cases hrel.1
        · rfl
      have hk := kindCheck_keys e1.kind e2.kind m
      rw [hkc] at hk
      have hfv2 : ∀ s ∈ freeVarsList e1.children, s ∈ SymMap.keys m1 := by
        intro s hs
        rcases fv_children e1 s hs with h | h
        · exact hk.1 s (hfv s h)
        · exact hrel.2.2 s h
      have hmain := ih r hrel.2.1 (skel_parts hsk).2.2 hfv2
      rw [cmp_of_ok_true (skel_parts hsk).1 hkc (not_not.mp hlen)]
      refine ⟨?_, hmain.2⟩
      rw [hmain.1, payloadEq_eq, hpl, Bool.true_and]
    · intro bs m r hm hsk hfv
      rw [cmpList_nil_left, payloadEqList_nil_left]
      exact ⟨rfl, hm⟩
    · intro c cs m r hm hsk hfv
      rw [skelList] at hsk
      cases hsk
    · intro c1 cs1 c2 cs2 m m1 hcmp ih1 ih2 r hm hsk hfv
      obtain ⟨hsk1, hsk2⟩ := skelList_cons_parts hsk
      have hfv1 : ∀ s ∈ c1.freeVars, s ∈ SymMap.keys m := by
        intro s hs
        exact hfv s (by rw [freeVarsList]; exact List.mem_append_left _ hs)
      have h1 := ih1 r hm hsk1 hfv1
      rw [hcmp] at h1
      have hpe : payloadEq c1 c2 = true := by
        rcases h1.1 with h
        exact (Except.ok.injEq .. ▸ h).symm
      have hkb := (cmp_keys_bounds c1 c2 m).1
      rw [hcmp] at hkb
      have hfv2 : ∀ s ∈ freeVarsList cs1, s ∈ SymMap.keys m1 := by
        intro s hs
        exact hkb s (hfv s (by rw [freeVarsList]; exact List.mem_append_right _ hs))
      have h2 := ih2 r h1.2 hsk2 hfv2
      rw [cmpList_cons_ok_true hcmp, payloadEqList_cons, hpe, Bool.true_and]
      exact h2
    · intro c1 cs1 c2 cs2 m hne ih1 r hm hsk hfv
      obtain ⟨hsk1, hsk2⟩ := skelList_cons_parts hsk
      have hfv1 : ∀ s ∈ c1.freeVars, s ∈ SymMap.keys m := by
        intro s hs
        exact hfv s (by rw [freeVarsList]; exact List.mem_append_left _ hs)
      have h1 := ih1 r hm hsk1 hfv1
      rcases hx : cmp c1 c2 m with ⟨x, m1⟩
      have hxne : x ≠ .ok true := fun hxe => hne m1 (by rw [hx, hxe])
      rw [hx] at h1
      have hpe : payloadEq c1 c2 = false := by
        rcases hp : payloadEq c1 c2
        · rfl
        · rw [hp] at h1; exact absurd h1.1 hxne
      rw [cmpList_cons_other hx hxne, payloadEqList_cons, hpe, Bool.false_and]
      have hxv : x = .ok false := by
        rw [hpe] at h1
        exact h1.1
      exact ⟨hxv, h1.2⟩
  exact main

/-! ## Renaming lemmas: a renamed tree is shape-related with equal payloads -/

theorem renameList_eq_map {T : Type} (l : List (Expr T)) (r : Symbol → Symbol) :
    renameList l r = l.map (fun c => c.rename r) := by
  induction l with
  | nil => rw [renameList, List.map_nil]
  | cons c cs ih => rw [renameList, List.map_cons, ih]

theorem rename_ty {T : Type} (e : Expr T) (r : Symbol → Symbol) :
    (e.rename r).ty = e.ty := by
  obtain ⟨t, k⟩ := e
  cases k <;> simp [Expr.rename, Expr.ty]

theorem iter_rename_children {T : Type} (it : Iter T) (r : Symbol → Symbol) :
    (it.rename r).children = it.children.map (fun c => c.rename r) := by
  obtain ⟨d, s, e, st⟩ := it
  cases s <;> cases e <;> cases st <;>
    simp [Iter.rename, Iter.children, renameOpt]

theorem renameIterList_eq_map {T : Type} (l : List (Iter T)) (r : Symbol → Symbol) :
    renameIterList l r = l.map (fun it => it.rename r) := by
  induction l with
  | nil => rw [renameIterList, List.map_nil]
  | cons it t ih => rw [renameIterList, List.map_cons, ih]

theorem flatMap_rename {T : Type} (its : List (Iter T)) (r : Symbol → Symbol) :
    (renameIterList its r).flatMap Iter.children =
      (its.flatMap Iter.children).map (fun c => c.rename r) := by
  induction its with
  | nil => simp [renameIterList]
  | cons it t ih =>
    simp [renameIterList, List.flatMap_cons, ih, iter_rename_children]

theorem children_rename {T : Type} (e : Expr T) (r : Symbol → Symbol) :
    (e.rename r).children = e.children.map (fun c => c.rename r) := by
  obtain ⟨t, k⟩ := e
  cases k <;>
    simp [Expr.rename, Expr.children, Expr.kind, renameList_eq_map, flatMap_rename]

theorem zip_map_self {α β : Type} (l : List α) (f : α → β) :
    l.zip (l.map f) = l.map (fun x => (x, f x)) := by
  induction l with
  | nil => rfl
  | cons a t ih => simp [List.zip_cons_cons, ih]

theorem skelKindLocal_rename {T : Type} [DecidableEq T] (r : Symbol → Symbol)
    (t : T) (k : ExprKind T) :
    skelKindLocal r k (Expr.rename ⟨t, k⟩ r).kind = true := by
  cases k <;> simp [Expr.rename, Expr.kind, skelKindLocal]
  case Lambda ps b =>
    rw [zip_map_self]
    simp [List.all_map]
    intro a b2 x hx h1 h2
    subst h1
    subst h2
    exact ⟨rfl, rfl⟩

theorem payloadLocal_rename {T : Type} (r : Symbol → Symbol) (t : T) (k : ExprKind T)
    (hnf : kindNanFree k = true) :
    payloadLocal k (Expr.rename ⟨t, k⟩ r).kind = true := by
  cases k with
  | F32Literal v =>
    have hv : Flt.feq v v = true := Flt.feq_self (by simpa [kindNanFree] using hnf)
    simp [Expr.rename, Expr.kind, payloadLocal, hv]
  | F64Literal v =>
    have hv : Flt.feq v v = true := Flt.feq_self (by simpa [kindNanFree] using hnf)
    simp [Expr.rename, Expr.kind, payloadLocal, hv]
  | _ => simp [Expr.rename, Expr.kind, payloadLocal]

theorem skelList_map {T : Type} [DecidableEq T] {r : Symbol → Symbol}
    (cs : List (Expr T)) (h : ∀ c ∈ cs, skel r c (c.rename r) = true) :
    skelList r cs (cs.map (fun c => c.rename r)) = true := by
  induction cs with
  | nil => rw [List.map_nil, skelList]
  | cons c t ih =>
    rw [List.map_cons, skelList, Bool.and_eq_true]
    exact ⟨h c (List.mem_cons_self _ _), ih (fun x hx => h x (List.mem_cons_of_mem _ hx))⟩

theorem skel_rename {T : Type} [DecidableEq T] (r : Symbol → Symbol) (e : Expr T) :
    skel r e (e.rename r) = true := by
  refine skel_intro (rename_ty e r).symm ?_ ?_
  · obtain ⟨t, k⟩ := e
    exact skelKindLocal_rename r t k
  · rw [children_rename]
    exact skelList_map e.children (fun c hc => skel_rename r c)
termination_by esize e
decreasing_by
  exact esize_child_lt hc

theorem payloadEqList_map {T : Type} (cs : List (Expr T)) (r : Symbol → Symbol)
    (h : ∀ c ∈ cs, payloadEq c (c.rename r) = true) :
    payloadEqList cs (cs.map (fun c => c.rename r)) = true := by
  induction cs with
  | nil => rw [List.map_nil, payloadEqList]
  | cons c t ih =>
    rw [List.map_cons, payloadEqList_cons, Bool.and_eq_true]
    exact ⟨h c (List.mem_cons_self _ _), ih (fun x hx => h x (List.mem_cons_of_mem _ hx))⟩

theorem payloadEq_rename {T : Type} (r : Symbol → Symbol) (e : Expr T)
    (hnf : e.nanFree = true) : payloadEq e (e.rename r) = true := by
  rw [payloadEq_eq, Bool.and_eq_true]
  constructor
  · obtain ⟨t, k⟩ := e
    exact payloadLocal_rename r t k (nanFree_children ⟨t, k⟩ hnf).1
  · rw [children_rename]
    exact payloadEqList_map e.children r
      (fun c hc => payloadEq_rename r c (nanFreeList_mem (nanFree_children e hnf).2 hc))
termination_by esize e
decreasing_by
  exact esize_child_lt hc

theorem param_map_id {T : Type} (ps : List (Parameter T)) :
    ps.map (fun p => (⟨p.name, p.ty⟩ : Parameter T)) = ps := by
  induction ps with
  | nil => rfl
  | cons p t ih => simp [ih]

theorem rename_id {T : Type} (e : Expr T) : e.rename (fun s => s) = e := by
  refine Expr.rename.induct
    (fun e r => r = (fun s => s) → e.rename r = e)
    (fun l r => r = (fun s => s) → renameIterList l r = l)
    (fun it r => r = (fun s => s) → it.rename r = it)
    (fun o r => r = (fun s => s) → renameOpt o r = o)
    (fun l r => r = (fun s => s) → renameList l r = l)
    ?_ ?_ ?_ ?_ ?_ ?_ ?_ ?_ ?_ ?_ ?_ ?_ ?_ ?_ ?_ ?_ ?_ ?_ ?_ ?_ ?_ ?_ ?_ ?_ ?_ ?_
    e (fun s => s) rfl
  all_goals intros
  all_goals try intro hh
  all_goals
    simp_all [Expr.rename, renameList, renameOpt, Iter.rename, renameIterList, param_map_id]

/-! ## Claim C2: reflexivity of the comparison on closed trees -/

/-- Claim C2 (amended with the NaN-freeness the literal guards need): for
every closed expression (every `Ident` bound by an enclosing `Let` or
`Lambda` parameter, i.e. no free variables) with no NaN float literal,
`compare_ignoring_symbols(e, e)` returns `Ok(true)` — never `Ok(false)` and
never an error.  (As originally stated — every closed, well-formed tree —
the claim is false: a closed tree that is a NaN float literal compares
unequal to itself because IEEE `==` is non-reflexive at NaN; see the
counterexample.) -/
theorem claim2_compare_refl {T : Type} [DecidableEq T] (e : Expr T)
    (h : e.freeVars = []) (hnf : e.nanFree = true) :
    compare_ignoring_symbols e e = .ok true := by
  have hskel : skel (fun s => s) e e = true := by
    have h2 := skel_rename (fun s => s) e
    rwa [rename_id] at h2
  have hpe : payloadEq e e = true := by
    have h2 := payloadEq_rename (fun s => s) e hnf
    rwa [rename_id] at h2
  have hm := cmp_master e e [] (fun s => s) (mapRel_nil _) hskel (by simp [h])
  rw [compare_ignoring_symbols, hm.1, hpe]

/-- Example closed expression for witnesses. -/
def exLet : Expr Nat := ⟨0, .Let xsym ⟨0, .I32Literal 1⟩ ⟨0, .Ident xsym⟩⟩

/-- Witness for C2 at a concrete closed input. -/
theorem claim2_compare_refl_witness :
    Expr.freeVars exLet = [] ∧ Expr.nanFree exLet = true ∧
    compare_ignoring_symbols exLet exLet = .ok true :=
  ⟨by decide, by decide, claim2_compare_refl exLet (by decide) (by decide)⟩

/-- Counterexample to C2 as stated: the tree `F32Literal(NaN)` is closed
(no free variables at all), yet comparing it with itself answers
`Ok(false)`, not `Ok(true)` — the literal guard `l == r` fails because IEEE
`==` is non-reflexive at NaN. -/
theorem claim2_counterexample :
    Expr.freeVars (⟨0, .F32Literal .nan⟩ : Expr Nat) = [] ∧
    compare_ignoring_symbols (⟨0, .F32Literal .nan⟩ : Expr Nat) ⟨0, .F32Literal .nan⟩ =
      .ok false := by
  refine ⟨by decide, ?_⟩
  simp [compare_ignoring_symbols, cmp, kindCheck, Expr.children, Expr.kind, Expr.ty,
    Flt.feq]

/-! ## Claim C3: invariance under consistent renaming of bound symbols -/

/-- Claim C3 (amended with the NaN-freeness the literal guards need): for a
closed expression with no NaN float literal, consistently incrementing the
disambiguation id of every symbol (binders and the identifiers referring to
them — on a closed tree these are exactly the bound symbols) yields a tree
the comparison declares equal.  (As originally stated the claim is false: a
closed tree containing a NaN float literal compares unequal to its
consistently renamed copy, because the untouched NaN payload fails its own
guard; see the counterexample.) -/
theorem claim3_compare_alpha {T : Type} [DecidableEq T] (e : Expr T)
    (h : e.freeVars = []) (hnf : e.nanFree = true) :
    compare_ignoring_symbols e (e.rename bumpSym) = .ok true := by
  have hm := cmp_master e (e.rename bumpSym) [] bumpSym (mapRel_nil _)
    (skel_rename bumpSym e) (by simp [h])
  rw [compare_ignoring_symbols, hm.1, payloadEq_rename bumpSym e hnf]

/-- Witness for C3 at a concrete closed input. -/
theorem claim3_compare_alpha_witness :
    Expr.freeVars exLet = [] ∧ Expr.nanFree exLet = true ∧
    compare_ignoring_symbols exLet (exLet.rename bumpSym) = .ok true :=
  ⟨by decide, by decide, claim3_compare_alpha exLet (by decide) (by decide)⟩

/-- Counterexample to C3 as stated: `F32Literal(NaN)` is closed and the
consistent renaming leaves it unchanged (it contains no symbol), yet the
comparison answers `Ok(false)` — the renamed pair of NaN payloads fails the
literal guard. -/
theorem claim3_counterexample :
    Expr.freeVars (⟨0, .F32Literal .nan⟩ : Expr Nat) = [] ∧
    compare_ignoring_symbols (⟨0, .F32Literal .nan⟩ : Expr Nat)
      ((⟨0, .F32Literal .nan⟩ : Expr Nat).rename bumpSym) = .ok false := by
  refine ⟨by decide, ?_⟩
  simp [compare_ignoring_symbols, cmp, kindCheck, Expr.rename, Expr.children, Expr.kind,
    Expr.ty, Flt.feq]

/-! ## Claim C5: trees differing only in literal values or operators -/

/-- Claim C5 (amended with the closedness the algorithm needs): for a closed
left tree, if two trees are identical except possibly at literal values and
`BinOp` operator kinds (`skel` under the identity renaming) and some such
payload really differs (`payloadEq` false), the comparison answers
`Ok(false)` — not an error. -/
theorem claim5_literal_difference {T : Type} [DecidableEq T] (e1 e2 : Expr T)
    (hclosed : e1.freeVars = []) (hskel : skel (fun s => s) e1 e2 = true)
    (hpayload : payloadEq e1 e2 = false) :
    compare_ignoring_symbols e1 e2 = .ok false := by
  have hm := cmp_master e1 e2 [] (fun s => s) (mapRel_nil _) hskel (by simp [hclosed])
  rw [compare_ignoring_symbols, hm.1, hpayload]

/-- Witness for C5 at a concrete input: literals `1` and `2`. -/
theorem claim5_literal_difference_witness :
    compare_ignoring_symbols (⟨0, .I32Literal 1⟩ : Expr Nat) ⟨0, .I32Literal 2⟩ =
      .ok false := by
  refine claim5_literal_difference _ _ (by decide) ?_ ?_
  · exact skel_intro rfl (by simp [skelKindLocal, Expr.kind])
      (by simp [Expr.children, Expr.kind, skelList])
  · rw [payloadEq_eq]
    simp [payloadLocal, Expr.kind]

/-- Counterexample to C5 as stated: these two trees are identical except
for the `I32Literal` payload at the second struct field, yet the comparison
returns the undefined-symbol error — not the not-equal result — because the
free `Ident(x)` at the first field is reached before the differing literal.
The claim holds only for closed trees. -/
theorem claim5_counterexample :
    skel (fun s => s)
        (⟨0, .MakeStruct [⟨0, .Ident xsym⟩, ⟨0, .I32Literal 1⟩]⟩ : Expr Nat)
        ⟨0, .MakeStruct [⟨0, .Ident xsym⟩, ⟨0, .I32Literal 2⟩]⟩ = true ∧
    payloadEq
        (⟨0, .MakeStruct [⟨0, .Ident xsym⟩, ⟨0, .I32Literal 1⟩]⟩ : Expr Nat)
        ⟨0, .MakeStruct [⟨0, .Ident xsym⟩, ⟨0, .I32Literal 2⟩]⟩ = false ∧
    compare_ignoring_symbols
        (⟨0, .MakeStruct [⟨0, .Ident xsym⟩, ⟨0, .I32Literal 1⟩]⟩ : Expr Nat)
        ⟨0, .MakeStruct [⟨0, .Ident xsym⟩, ⟨0, .I32Literal 2⟩]⟩ =
      .error undefinedSymbolMsg := by
  refine ⟨?_, ?_, ?_⟩
  · simp [skel, skelList, skelKindLocal, Expr.children, Expr.kind, Expr.ty]
  · simp [payloadEq, payloadEqList, payloadLocal, Expr.children, Expr.kind]
  · simp [compare_ignoring_symbols, cmp, cmpList, kindCheck, Expr.children, Expr.kind,
      Expr.ty, SymMap.lookup]

/-! ## Claim C4: free identifiers and the undefined-symbol error -/

/-- Claim C4 (amended): comparing a NaN-free tree against itself, an
`Ident` whose symbol is bound by no `Let` or `Lambda` anywhere in the tree
forces the undefined-symbol error — never the not-equal result — and the
error carries the one message the code constructs, propagated unchanged
from the first failing `Ident` to the overall result.  (As originally
stated — any tree containing any truly free `Ident`, compared against any
tree — the claim is false: see the counterexample, where the comparison
answers not-equal before ever resolving the free identifier.  Both
restrictions are needed: against a different tree a kind or annotation
mismatch short-circuits to `Ok(false)` first, and even in self-comparison a
NaN float literal reached before the free `Ident` short-circuits to
`Ok(false)`, while a stale sibling mapping can resolve the `Ident` to
success.) -/
theorem claim4_free_ident_error {T : Type} [DecidableEq T] (e : Expr T) (s : Symbol)
    (hfree : s ∈ e.freeVars) (hnotbound : s ∉ e.binderNames)
    (hnf : e.nanFree = true) :
    compare_ignoring_symbols e e = .error undefinedSymbolMsg := by
  have ha := cmp_self_result e e [] rfl hnf (mapRel_nil _)
  rcases ha.1 with h | h
  · have hb := cmp_self_cover e e [] rfl h s hfree
    rcases hb with h2 | h2
    · simp [SymMap.keys] at h2
    · exact absurd h2 hnotbound
  · rw [compare_ignoring_symbols, h]

/-- Witness for C4 (amended) at a concrete input. -/
theorem claim4_free_ident_error_witness :
    xsym ∈ Expr.freeVars (⟨0, .Ident xsym⟩ : Expr Nat) ∧
    xsym ∉ Expr.binderNames (⟨0, .Ident xsym⟩ : Expr Nat) ∧
    Expr.nanFree (⟨0, .Ident xsym⟩ : Expr Nat) = true ∧
    compare_ignoring_symbols (⟨0, .Ident xsym⟩ : Expr Nat) ⟨0, .Ident xsym⟩ =
      .error undefinedSymbolMsg :=
  ⟨by decide, by decide, by decide,
   claim4_free_ident_error (⟨0, .Ident xsym⟩ : Expr Nat) xsym (by decide) (by decide)
     (by decide)⟩

/-- Counterexample to C4 as stated: the left tree is a truly free
`Ident(x)`, yet comparing it against an `I32Literal` returns `Ok(false)`
(the not-equal result), not an error — the kind mismatch short-circuits
before the free identifier is ever looked up. -/
theorem claim4_counterexample :
    xsym ∈ Expr.freeVars (⟨0, .Ident xsym⟩ : Expr Nat) ∧
    compare_ignoring_symbols (⟨0, .Ident xsym⟩ : Expr Nat) ⟨0, .I32Literal 7⟩ =
      .ok false := by
  refine ⟨by decide, ?_⟩
  simp [compare_ignoring_symbols, cmp, cmpList, kindCheck, Expr.children, Expr.kind,
    Expr.ty, SymMap.lookup]

/-! ## Claim C10: binder mappings persist after their scope is left -/

/-- The left tree of the stale-mapping scenario: a struct whose first field
binds `x` in a `Let` and whose second field is a truly free `Ident(x)`. -/
def c10left : Expr Nat :=
  ⟨0, .MakeStruct [⟨0, .Let xsym ⟨0, .I32Literal 1⟩ ⟨0, .Ident xsym⟩⟩, ⟨0, .Ident xsym⟩]⟩

/-- The right tree of the stale-mapping scenario, with `y` in place of `x`. -/
def c10right : Expr Nat :=
  ⟨0, .MakeStruct [⟨0, .Let ysym ⟨0, .I32Literal 1⟩ ⟨0, .Ident ysym⟩⟩, ⟨0, .Ident ysym⟩]⟩

/-- Claim C10: the `x → y` mapping recorded at the `Let` binder is never
removed when the walk leaves the scope of the binder — the final map still
contains it — and consequently this pair of trees, whose second struct
field is a truly free `Ident(x)` on the left (witnessed by `x` being a free
variable of the tree), compares as `Ok(true)` rather than producing the
undefined-symbol error: the stale mapping resolves the free identifier. -/
theorem claim10_stale_mapping :
    xsym ∈ Expr.freeVars c10left ∧
    compare_ignoring_symbols c10left c10right = .ok true ∧
    (cmp c10left c10right []).2 = [(xsym, ysym)] := by
  refine ⟨by decide, ?_, ?_⟩
  · simp [compare_ignoring_symbols, c10left, c10right, cmp, cmpList, kindCheck,
      Expr.children, Expr.kind, Expr.ty, SymMap.lookup]
  · simp [c10left, c10right, cmp, cmpList, kindCheck,
      Expr.children, Expr.kind, Expr.ty, SymMap.lookup]

end Weld